import Mathlib

/-!
Verification of the Zerynth core value-representation and collection subsystem
against its documented interface (src/__lang/lang.h, src/__common/vhal.h).

Machine words are modelled as Nat with explicit reduction modulo 2^32 where
the C code computes in uint32_t; signed quantities are modelled as Int.
-/

namespace Zerynth

/- ===================================================================
   Serial configuration word (src/__common/vhal.h, lines 886-891).
   SERIAL_CFG packs parity, stop, bits, hw and other into a uint32_t;
   the SERIAL_CFG_* extractors recover the fields.
   =================================================================== -/

/-- C macro SERIAL_CFG(parity,stop,bits,hw,other):
(parity)|((stop)<<4)|((bits)<<8)|((hw)<<12)|((other)<<16), as uint32_t. -/
def SERIAL_CFG (parity stop bits hw other : Nat) : Nat :=
  (parity ||| (stop <<< 4) ||| (bits <<< 8) ||| (hw <<< 12) ||| (other <<< 16)) % 2 ^ 32

/-- C macro SERIAL_CFG_PARITY(cfg): (cfg)&0xf. -/
def SERIAL_CFG_PARITY (cfg : Nat) : Nat := cfg &&& 0xf

/-- C macro SERIAL_CFG_STOP(cfg): ((cfg)>>4)&0xf. -/
def SERIAL_CFG_STOP (cfg : Nat) : Nat := (cfg >>> 4) &&& 0xf

/-- C macro SERIAL_CFG_BITS(cfg): ((cfg)>>8)&0xf. -/
def SERIAL_CFG_BITS (cfg : Nat) : Nat := (cfg >>> 8) &&& 0xf

/-- C macro SERIAL_CFG_HW(cfg): ((cfg)>>12)&0xf. -/
def SERIAL_CFG_HW (cfg : Nat) : Nat := (cfg >>> 12) &&& 0xf

/-- C macro SERIAL_CFG_OTHER(cfg): ((cfg)>>12). -/
def SERIAL_CFG_OTHER (cfg : Nat) : Nat := cfg >>> 12

/-- Bitwise or of a value below 2^n with a multiple of 2^n is addition. -/
theorem lor_two_pow_mul (n : Nat) :
    ∀ a c : Nat, a < 2 ^ n → a ||| 2 ^ n * c = a + 2 ^ n * c := by
  induction n with
  | zero =>
    intro a c ha
    have : a = 0 := by omega
    subst this
    simp
  | succ n ih =>
    intro a c ha
    have hsplit : 2 ^ (n + 1) * c = 2 * (2 ^ n * c) := by ring
    have hhalf : a / 2 < 2 ^ n := by
      rw [Nat.pow_succ] at ha
      omega
    have hdiv : (a ||| 2 ^ (n + 1) * c) / 2 = a / 2 + 2 ^ n * c := by
      rw [Nat.or_div_two]
      have h1 : 2 ^ (n + 1) * c / 2 = 2 ^ n * c := by
        rw [hsplit]
        exact Nat.mul_div_cancel_left _ (by norm_num)
      rw [h1]
      exact ih (a / 2) c hhalf
    have hmod : (a ||| 2 ^ (n + 1) * c) % 2 = a % 2 := by
      have hb : 2 ^ (n + 1) * c % 2 = 0 := by
        rw [hsplit]
        exact Nat.mul_mod_right 2 _
      rcases Nat.mod_two_eq_zero_or_one a with h | h
      · rcases Nat.mod_two_eq_zero_or_one (a ||| 2 ^ (n + 1) * c) with h2 | h2
        · omega
        · have := (Nat.or_mod_two_eq_one (a := a) (b := 2 ^ (n + 1) * c)).mp h2
          omega
      · have := (Nat.or_mod_two_eq_one (a := a) (b := 2 ^ (n + 1) * c)).mpr (Or.inl h)
        omega
    have hx := Nat.div_add_mod (a ||| 2 ^ (n + 1) * c) 2
    have hy := Nat.div_add_mod a 2
    omega

/-- The serial configuration word as plain arithmetic, for in-range fields. -/
theorem SERIAL_CFG_eq_arith (parity stop bits hw other : Nat)
    (hp : parity < 16) (hs : stop < 16) (hb : bits < 16) (hh : hw < 16) :
    SERIAL_CFG parity stop bits hw other =
      parity + 16 * stop + 256 * bits + 4096 * hw + 65536 * (other % 65536) := by
  unfold SERIAL_CFG
  rw [Nat.shiftLeft_eq, Nat.shiftLeft_eq, Nat.shiftLeft_eq, Nat.shiftLeft_eq]
  have e1 : parity ||| stop * 2 ^ 4 = parity + 16 * stop := by
    have := lor_two_pow_mul 4 parity stop (by omega)
    have h : (2 : Nat) ^ 4 * stop = stop * 2 ^ 4 := by ring
    rw [h] at this
    rw [this]
    ring_nf
  rw [e1]
  have e2 : parity + 16 * stop ||| bits * 2 ^ 8 = parity + 16 * stop + 256 * bits := by
    have := lor_two_pow_mul 8 (parity + 16 * stop) bits (by omega)
    have h : (2 : Nat) ^ 8 * bits = bits * 2 ^ 8 := by ring
    rw [h] at this
    rw [this]
    ring_nf
  rw [e2]
  have e3 : parity + 16 * stop + 256 * bits ||| hw * 2 ^ 12 =
      parity + 16 * stop + 256 * bits + 4096 * hw := by
    have := lor_two_pow_mul 12 (parity + 16 * stop + 256 * bits) hw (by omega)
    have h : (2 : Nat) ^ 12 * hw = hw * 2 ^ 12 := by ring
    rw [h] at this
    rw [this]
    ring_nf
  rw [e3]
  have e4 : parity + 16 * stop + 256 * bits + 4096 * hw ||| other * 2 ^ 16 =
      parity + 16 * stop + 256 * bits + 4096 * hw + 65536 * other := by
    have := lor_two_pow_mul 16 (parity + 16 * stop + 256 * bits + 4096 * hw) other (by omega)
    have h : (2 : Nat) ^ 16 * other = other * 2 ^ 16 := by ring
    rw [h] at this
    rw [this]
    ring_nf
  rw [e4]
  omega

/-- Claim C10: for parity, stop, bits, hw each in 0..15 and any other value,
the serial configuration word packs losslessly: each SERIAL_CFG_* extractor
applied to SERIAL_CFG(parity,stop,bits,hw,other) recovers the packed field. -/
theorem serial_cfg_roundtrip (parity stop bits hw other : Nat)
    (hp : parity < 16) (hs : stop < 16) (hb : bits < 16) (hh : hw < 16) :
    SERIAL_CFG_PARITY (SERIAL_CFG parity stop bits hw other) = parity ∧
    SERIAL_CFG_STOP (SERIAL_CFG parity stop bits hw other) = stop ∧
    SERIAL_CFG_BITS (SERIAL_CFG parity stop bits hw other) = bits ∧
    SERIAL_CFG_HW (SERIAL_CFG parity stop bits hw other) = hw := by
  rw [SERIAL_CFG_eq_arith parity stop bits hw other hp hs hb hh]
  unfold SERIAL_CFG_PARITY SERIAL_CFG_STOP SERIAL_CFG_BITS SERIAL_CFG_HW
  have hmask : (0xf : Nat) = 2 ^ 4 - 1 := by norm_num
  rw [hmask]
  rw [Nat.and_pow_two_sub_one_eq_mod, Nat.and_pow_two_sub_one_eq_mod,
    Nat.and_pow_two_sub_one_eq_mod, Nat.and_pow_two_sub_one_eq_mod]
  rw [Nat.shiftRight_eq_div_pow, Nat.shiftRight_eq_div_pow, Nat.shiftRight_eq_div_pow]
  norm_num
  omega

/-- Witness for C10 at parity=2, stop=1, bits=0, hw=3, other=99. -/
theorem serial_cfg_roundtrip_witness :
    (2 : Nat) < 16 ∧
    SERIAL_CFG_PARITY (SERIAL_CFG 2 1 0 3 99) = 2 ∧
    SERIAL_CFG_STOP (SERIAL_CFG 2 1 0 3 99) = 1 ∧
    SERIAL_CFG_BITS (SERIAL_CFG 2 1 0 3 99) = 0 ∧
    SERIAL_CFG_HW (SERIAL_CFG 2 1 0 3 99) = 3 :=
  ⟨by decide,
    serial_cfg_roundtrip 2 1 0 3 99 (by decide) (by decide) (by decide) (by decide)⟩

/- ===================================================================
   Error / result codes.
   The VHAL_* macros are literal in src/__common/vhal.h, lines 1479-1485,
   each defined as the arithmetic negation of an ERR_* code.
   =================================================================== -/

/-- Modelled from the spec: numeric values of the ERR_* exception codes come
from pexc.h, which is not in src/; the spec fixes success = 0 and all failure
codes as distinct positive small integers, one per exception kind, in the
order the exception macros are documented in src/__lang/lang.h. -/
def ERR_OK : Int := 0

/-- Modelled from the spec: failure code for TypeError (pexc.h not in src/). -/
def ERR_TYPE_EXC : Int := 1

/-- Modelled from the spec: failure code for ZeroDivisionError. -/
def ERR_ZERODIV_EXC : Int := 2

/-- Modelled from the spec: failure code for AttributeError. -/
def ERR_ATTRIBUTE_EXC : Int := 3

/-- Modelled from the spec: failure code for RuntimeError. -/
def ERR_RUNTIME_EXC : Int := 4

/-- Modelled from the spec: failure code for ValueError. -/
def ERR_VALUE_EXC : Int := 5

/-- Modelled from the spec: failure code for IndexError. -/
def ERR_INDEX_EXC : Int := 6

/-- Modelled from the spec: failure code for KeyError. -/
def ERR_KEY_EXC : Int := 7

/-- Modelled from the spec: failure code for NotImplementedError. -/
def ERR_NOT_IMPLEMENTED_EXC : Int := 8

/-- Modelled from the spec: failure code for UnsupportedError. -/
def ERR_UNSUPPORTED_EXC : Int := 9

/-- Modelled from the spec: failure code for OverflowError. -/
def ERR_OVERFLOW_EXC : Int := 10

/-- Modelled from the spec: failure code for StopIteration. -/
def ERR_STOP_ITERATION : Int := 11

/-- Modelled from the spec: failure code for NameError. -/
def ERR_NAME_EXC : Int := 12

/-- Modelled from the spec: failure code for IOError. -/
def ERR_IOERROR_EXC : Int := 13

/-- Modelled from the spec: failure code for ConnectionRefusedError. -/
def ERR_CONNECTION_REF_EXC : Int := 14

/-- Modelled from the spec: failure code for ConnectionResetError. -/
def ERR_CONNECTION_RES_EXC : Int := 15

/-- Modelled from the spec: failure code for ConnectionAbortedError. -/
def ERR_CONNECTION_ABR_EXC : Int := 16

/-- Modelled from the spec: failure code for TimeoutError. -/
def ERR_TIMEOUT_EXC : Int := 17

/-- Modelled from the spec: failure code for PeripheralError. -/
def ERR_PERIPHERAL_ERROR_EXC : Int := 18

/-- Modelled from the spec: failure code for InvalidPinError. -/
def ERR_PERIPHERAL_INVALID_PIN_EXC : Int := 19

/-- Modelled from the spec: failure code for InvalidHardwareStatusError. -/
def ERR_PERIPHERAL_INVALID_HARDWARE_STATUS_EXC : Int := 20

/-- Modelled from the spec: failure code for HardwareInitializationError
(the identifier referenced by src/__common/vhal.h line 1484). -/
def ERR_HARDWARE_INITIALIZATION_ERROR : Int := 21

/-- All failure codes of the enumeration (everything except ERR_OK). -/
def errFailureCodes : List Int :=
  [ERR_TYPE_EXC, ERR_ZERODIV_EXC, ERR_ATTRIBUTE_EXC, ERR_RUNTIME_EXC,
   ERR_VALUE_EXC, ERR_INDEX_EXC, ERR_KEY_EXC, ERR_NOT_IMPLEMENTED_EXC,
   ERR_UNSUPPORTED_EXC, ERR_OVERFLOW_EXC, ERR_STOP_ITERATION, ERR_NAME_EXC,
   ERR_IOERROR_EXC, ERR_CONNECTION_REF_EXC, ERR_CONNECTION_RES_EXC,
   ERR_CONNECTION_ABR_EXC, ERR_TIMEOUT_EXC, ERR_PERIPHERAL_ERROR_EXC,
   ERR_PERIPHERAL_INVALID_PIN_EXC, ERR_PERIPHERAL_INVALID_HARDWARE_STATUS_EXC,
   ERR_HARDWARE_INITIALIZATION_ERROR]

/-- C macro VHAL_OK (src/__common/vhal.h line 1479): ERR_OK. -/
def VHAL_OK : Int := ERR_OK

/-- C macro VHAL_GENERIC_ERROR (vhal.h line 1480): -ERR_PERIPHERAL_ERROR_EXC. -/
def VHAL_GENERIC_ERROR : Int := -ERR_PERIPHERAL_ERROR_EXC

/-- C macro VHAL_INVALID_PIN (vhal.h line 1481): -ERR_PERIPHERAL_INVALID_PIN_EXC. -/
def VHAL_INVALID_PIN : Int := -ERR_PERIPHERAL_INVALID_PIN_EXC

/-- C macro VHAL_HARDWARE_STATUS_ERROR (vhal.h line 1482):
-ERR_PERIPHERAL_INVALID_HARDWARE_STATUS_EXC. -/
def VHAL_HARDWARE_STATUS_ERROR : Int := -ERR_PERIPHERAL_INVALID_HARDWARE_STATUS_EXC

/-- C macro VHAL_TIMEOUT_ERROR (vhal.h line 1483): -ERR_TIMEOUT_EXC. -/
def VHAL_TIMEOUT_ERROR : Int := -ERR_TIMEOUT_EXC

/-- C macro VHAL_HARDWARE_INITIALIZATION_ERROR (vhal.h line 1484):
-ERR_HARDWARE_INITIALIZATION_ERROR. -/
def VHAL_HARDWARE_INITIALIZATION_ERROR : Int := -ERR_HARDWARE_INITIALIZATION_ERROR

/-- C macro VHAL_UNSUPPORTED_ERROR (vhal.h line 1485): -ERR_UNSUPPORTED_EXC. -/
def VHAL_UNSUPPORTED_ERROR : Int := -ERR_UNSUPPORTED_EXC

/-- Claim C8: the success code is 0, every failure code is a distinct positive
small integer (the 1:1 map to exception kinds), and each peripheral-band
VHAL_* macro is the arithmetic negation of its corresponding ERR_* code. -/
theorem result_codes_correct :
    VHAL_OK = 0 ∧ ERR_OK = 0 ∧
    errFailureCodes.all (fun c => 0 < c ∧ c ≤ 64) = true ∧
    errFailureCodes.Nodup ∧
    VHAL_GENERIC_ERROR = -ERR_PERIPHERAL_ERROR_EXC ∧
    VHAL_INVALID_PIN = -ERR_PERIPHERAL_INVALID_PIN_EXC ∧
    VHAL_HARDWARE_STATUS_ERROR = -ERR_PERIPHERAL_INVALID_HARDWARE_STATUS_EXC ∧
    VHAL_TIMEOUT_ERROR = -ERR_TIMEOUT_EXC ∧
    VHAL_HARDWARE_INITIALIZATION_ERROR = -ERR_HARDWARE_INITIALIZATION_ERROR ∧
    VHAL_UNSUPPORTED_ERROR = -ERR_UNSUPPORTED_EXC := by
  refine ⟨rfl, rfl, by decide, by decide, rfl, rfl, rfl, rfl, rfl, rfl⟩

/- ===================================================================
   Small integer immediates.
   =================================================================== -/

/-- Modelled from the spec: PSMALLINT_NEW from pobj.h is not in src/; the spec
describes an immediate handle whose low bit is 1, whose secondary tag bit is 0
for integers, and whose remaining word-size-minus-2 = 30 bits hold the integer
in two's complement; no overflow check is performed. -/
def PSMALLINT_NEW (x : Int) : Nat := (x % 2 ^ 30).toNat * 4 + 1

/-- Modelled from the spec: PSMALLINT_VALUE from pobj.h is not in src/; it
recovers the signed 30-bit value from the tagged handle. -/
def PSMALLINT_VALUE (h : Nat) : Int :=
  if ((h / 4 : Nat) : Int) < 2 ^ 29 then ((h / 4 : Nat) : Int)
  else ((h / 4 : Nat) : Int) - 2 ^ 30

/-- Smallest integer representable as a PSMALLINT immediate. -/
def PSMALLINT_MIN : Int := -(2 ^ 29)

/-- Largest integer representable as a PSMALLINT immediate. -/
def PSMALLINT_MAX : Int := 2 ^ 29 - 1

/-- A handle is tagged (immediate) when its low bit is 1. -/
def IS_TAGGED (h : Nat) : Bool := h % 2 = 1

/-- Claim C3: for every integer in the immediate range, decoding the immediate
handle produced by encoding it gives back the integer:
PSMALLINT_VALUE(PSMALLINT_NEW(x)) = x. -/
theorem psmallint_roundtrip (x : Int)
    (hlo : PSMALLINT_MIN ≤ x) (hhi : x ≤ PSMALLINT_MAX) :
    PSMALLINT_VALUE (PSMALLINT_NEW x) = x := by
  unfold PSMALLINT_VALUE PSMALLINT_NEW
  unfold PSMALLINT_MIN at hlo
  unfold PSMALLINT_MAX at hhi
  have h4 : ((x % 2 ^ 30).toNat * 4 + 1) / 4 = (x % 2 ^ 30).toNat := by omega
  rw [h4]
  split <;> omega

/-- Witness for C3 at x = -42. -/
theorem psmallint_roundtrip_witness :
    PSMALLINT_MIN ≤ -42 ∧ (-42 : Int) ≤ PSMALLINT_MAX ∧
    PSMALLINT_VALUE (PSMALLINT_NEW (-42)) = -42 :=
  ⟨by decide, by decide, psmallint_roundtrip (-42) (by decide) (by decide)⟩

/- ===================================================================
   Sequence subsystem.
   =================================================================== -/

/-- The documented sequence type tags (src/__lang/lang.h). -/
inductive SeqType where
  | PSTRING
  | PBYTES
  | PBYTEARRAY
  | PSHORTS
  | PSHORTARRAY
  | PLIST
  | PTUPLE
deriving DecidableEq

/-- Whether a sequence type is mutable (bytearray, shortarray, list) or
immutable (string, bytes, shorts, tuple). -/
def SeqType.isMutable : SeqType → Bool
  | .PBYTEARRAY => true
  | .PSHORTARRAY => true
  | .PLIST => true
  | _ => false

/-- A sequence heap object: element count, storage capacity, raw storage
(scalar cells; 0 doubles as the null handle for object sequences). -/
structure PSequence where
  stype : SeqType
  elements : Nat
  capacity : Nat
  store : List Nat
deriving DecidableEq

/-- Modelled from the spec: the body of psequence_new is not in src/; per the
documented contract, a mutable sequence gets capacity for at least the
requested elements with the element count at 0 and zero-filled storage, an
immutable sequence gets exactly the requested elements with zero-filled
storage. -/
def psequence_new (ty : SeqType) (n : Nat) : PSequence :=
  if ty.isMutable then ⟨ty, 0, n, List.replicate n 0⟩
  else ⟨ty, n, n, List.replicate n 0⟩

/-- Modelled from the spec: pbytes_new (typed constructor) is not in src/; with
a buffer it copies the first len bytes verbatim, otherwise it zero-fills. -/
def pbytes_new (len : Nat) (buf : Option (List Nat)) : PSequence :=
  match buf with
  | none => psequence_new .PBYTES len
  | some b => ⟨.PBYTES, len, len, b.take len⟩

/-- Claim C5: a freshly created sequence satisfies elements <= capacity; a
mutable one starts with 0 elements and zero-filled storage, an immutable one
with exactly the requested element count and zero-filled storage, or storage
copied verbatim from the initialization buffer handed to a typed
constructor. -/
theorem psequence_new_spec (ty : SeqType) (n : Nat) (b : List Nat)
    (hb : b.length = n) :
    (psequence_new ty n).elements ≤ (psequence_new ty n).capacity ∧
    (ty.isMutable = true →
      (psequence_new ty n).elements = 0 ∧
      (psequence_new ty n).store = List.replicate (psequence_new ty n).capacity 0) ∧
    (ty.isMutable = false →
      (psequence_new ty n).elements = n ∧
      (psequence_new ty n).store = List.replicate n 0) ∧
    (pbytes_new n (some b)).elements = n ∧
    (pbytes_new n (some b)).store = b := by
  unfold psequence_new pbytes_new
  refine ⟨?_, ?_, ?_, ?_, ?_⟩
  · split <;> simp
  · intro h
    rw [if_pos h]
    exact ⟨rfl, rfl⟩
  · intro h
    rw [if_neg (by simp [h])]
    exact ⟨rfl, rfl⟩
  · rfl
  · simpa using List.take_of_length_le (le_of_eq hb)

/-- Witness for C5 at a mutable list of 3, an immutable tuple of 3 and a
byte buffer of length 2. -/
theorem psequence_new_spec_witness :
    (psequence_new .PLIST 3).elements = 0 ∧
    (psequence_new .PTUPLE 3).elements = 3 ∧
    (pbytes_new 2 (some [97, 98])).store = [97, 98] :=
  ⟨((psequence_new_spec .PLIST 3 [0, 0, 0] rfl).2.1 rfl).1,
   ((psequence_new_spec .PTUPLE 3 [0, 0, 0] rfl).2.2.1 rfl).1,
   (psequence_new_spec .PBYTES 2 [97, 98] rfl).2.2.2.2⟩

/- ===================================================================
   Native argument marshaling (parse_py_args).
   =================================================================== -/

/-- A value handle as seen by the marshaler: integers (PSMALLINT/PINTEGER),
floats (PFLOAT), byte sequences (PSTRING/PBYTES/PBYTEARRAY), booleans (PBOOL)
and None; the float payload type is a parameter. -/
inductive PObj (φ : Type) where
  | pint (n : Int)
  | pfloat (x : φ)
  | pstr (bytes : List Nat)
  | pbool (b : Bool)
  | pnone
deriving DecidableEq

/-- The format codes of parse_py_args. -/
inductive FmtCode where
  | l
  | L
  | i
  | I
  | f
  | F
  | s
  | S
  | b
  | B
deriving DecidableEq

/-- Capital codes are the optional ones (they carry a default vararg). -/
def FmtCode.isOptionalCode : FmtCode → Bool
  | .L => true
  | .I => true
  | .F => true
  | .S => true
  | .B => true
  | _ => false

/-- A converted output value: 64-bit integer, 32-bit integer, double, or a
byte-pointer/length pair. -/
inductive CVal (φ : Type) where
  | i64 (n : Int)
  | i32 (n : Int)
  | flt (x : φ)
  | buf (bytes : List Nat) (len : Nat)
deriving DecidableEq

/-- Conversion of one supplied argument for one format code: integers for
l/L/i/I, floats for f/F, byte sequences (with their length) for s/S/b/B;
none on a kind mismatch. -/
def convertCode {φ : Type} (c : FmtCode) (o : PObj φ) : Option (CVal φ) :=
  match c, o with
  | .l, .pint n => some (.i64 n)
  | .L, .pint n => some (.i64 n)
  | .i, .pint n => some (.i32 n)
  | .I, .pint n => some (.i32 n)
  | .f, .pfloat x => some (.flt x)
  | .F, .pfloat x => some (.flt x)
  | .s, .pstr bs => some (.buf bs bs.length)
  | .S, .pstr bs => some (.buf bs bs.length)
  | .b, .pstr bs => some (.buf bs bs.length)
  | .B, .pstr bs => some (.buf bs bs.length)
  | _, _ => none

/-- Modelled from the spec: the body of parse_py_args is not in src/; per the
documented contract, each format position converts its supplied argument (a
kind mismatch stops the scan), positions past the supplied argument count are
filled from the default half of the optional-code vararg pairs, and the
returned count is the number of positions successfully converted. The format
is given as a list of code/default pairs (the default vararg of the capital
codes), the outputs as the list of written output slots. -/
def parse_py_args {φ : Type} :
    List (FmtCode × Option (CVal φ)) → List (PObj φ) → Nat × List (CVal φ)
  | [], _ => (0, [])
  | (c, d) :: fs, [] =>
    if c.isOptionalCode then
      match d with
      | some dv =>
        let r := parse_py_args fs []
        (r.1 + 1, dv :: r.2)
      | none => (0, [])
    else (0, [])
  | (c, _) :: fs, a :: rest =>
    match convertCode c a with
    | some cv =>
      let r := parse_py_args fs rest
      (r.1 + 1, cv :: r.2)
    | none => (0, [])

/-- Pairwise conversion of a format prefix against its supplied arguments;
some outs exactly when every position converts. -/
def convertAll {φ : Type} :
    List (FmtCode × Option (CVal φ)) → List (PObj φ) → Option (List (CVal φ))
  | [], [] => some []
  | (c, _) :: fs, a :: rest =>
    match convertCode c a, convertAll fs rest with
    | some cv, some outs => some (cv :: outs)
    | _, _ => none
  | _, _ => none

/-- The defaults of a format suffix; some values exactly when every position
is an optional code carrying a default. -/
def allDefaults {φ : Type} :
    List (FmtCode × Option (CVal φ)) → Option (List (CVal φ))
  | [] => some []
  | (c, some dv) :: fs =>
    if c.isOptionalCode then (allDefaults fs).map (dv :: ·) else none
  | (_, none) :: _ => none

/-- With no supplied arguments left, an all-optional format suffix converts
entirely from its defaults. -/
theorem parse_py_args_nil_args {φ : Type}
    (fs : List (FmtCode × Option (CVal φ))) (dflts : List (CVal φ))
    (hdef : allDefaults fs = some dflts) :
    parse_py_args fs ([] : List (PObj φ)) = (fs.length, dflts) := by
  induction fs generalizing dflts with
  | nil =>
    simp only [allDefaults, Option.some_inj] at hdef
    simp [parse_py_args, ← hdef]
  | cons hd tl ih =>
    obtain ⟨c, d⟩ := hd
    match d with
    | none => simp [allDefaults] at hdef
    | some dv =>
      simp only [allDefaults] at hdef
      by_cases hopt : c.isOptionalCode
      · rw [if_pos hopt] at hdef
        match htl : allDefaults tl with
        | none => rw [htl] at hdef; simp at hdef
        | some dflts0 =>
          rw [htl] at hdef
          simp only [Option.map_some', Option.some_inj] at hdef
          subst hdef
          simp only [parse_py_args, if_pos hopt]
          rw [ih dflts0 htl]
          rfl
      · rw [if_neg hopt] at hdef
        simp at hdef

/-- Claim C4: every format position at or past the supplied argument count
whose code is optional is filled from its supplied default; when all supplied
arguments convert and the remaining positions are optional with defaults, the
call reports the full format length and the outputs are the converted
arguments followed by the defaults. -/
theorem parse_py_args_defaults {φ : Type}
    (fsHead fsTail : List (FmtCode × Option (CVal φ)))
    (args : List (PObj φ)) (outs dflts : List (CVal φ))
    (hlen : fsHead.length = args.length)
    (hok : convertAll fsHead args = some outs)
    (hdef : allDefaults fsTail = some dflts) :
    parse_py_args (fsHead ++ fsTail) args =
      (fsHead.length + fsTail.length, outs ++ dflts) := by
  induction fsHead generalizing args outs with
  | nil =>
    match args with
    | [] =>
      simp only [convertAll, Option.some_inj] at hok
      subst hok
      simpa using parse_py_args_nil_args fsTail dflts hdef
    | _ :: _ => simp at hlen
  | cons hd tl ih =>
    obtain ⟨c, d⟩ := hd
    match args with
    | [] => simp at hlen
    | a :: rest =>
      simp only [convertAll] at hok
      match hc : convertCode c a, hrest : convertAll tl rest with
      | none, _ =>
        rw [hc] at hok
        simp at hok
      | some cv, none =>
        rw [hc, hrest] at hok
        simp at hok
      | some cv, some outs0 =>
        rw [hc, hrest] at hok
        simp only [Option.some_inj] at hok
        subst hok
        simp only [List.cons_append, parse_py_args, List.append_eq, hc]
        rw [ih rest outs0 (by simpa using hlen) hrest]
        simp only [Prod.mk.injEq, List.length_cons, List.cons_append, and_true]
        omega

/-- Witness for C4: format "ifsI" with supplied arguments [5, 2.5, "ab"] and
default 2 for the fourth position converts all four positions. -/
theorem parse_py_args_defaults_witness :
    parse_py_args
      [(FmtCode.i, none), (FmtCode.f, none), (FmtCode.s, none),
       (FmtCode.I, some (CVal.i32 2))]
      [PObj.pint 5, PObj.pfloat (2.5 : ℚ), PObj.pstr [97, 98]] =
      (4, [CVal.i32 5, CVal.flt (2.5 : ℚ), CVal.buf [97, 98] 2, CVal.i32 2]) := by
  have h := parse_py_args_defaults (φ := ℚ)
    [(FmtCode.i, none), (FmtCode.f, none), (FmtCode.s, none)]
    [(FmtCode.I, some (CVal.i32 2))]
    [PObj.pint 5, PObj.pfloat (2.5 : ℚ), PObj.pstr [97, 98]]
    [CVal.i32 5, CVal.flt (2.5 : ℚ), CVal.buf [97, 98] 2]
    [CVal.i32 2]
    (by decide) rfl rfl
  simpa using h

/-- Claim C1: parse_py_args returns the number of positions successfully
converted; if every position before k converts and position k (supplied,
non-optional code) has a kind mismatch, the scan stops there and the call
returns k. -/
theorem parse_py_args_stops_at_mismatch {φ : Type}
    (fsHead fsTail : List (FmtCode × Option (CVal φ)))
    (argsHead argsTail : List (PObj φ)) (outs : List (CVal φ))
    (c : FmtCode) (d : Option (CVal φ)) (a : PObj φ)
    (hlen : fsHead.length = argsHead.length)
    (hok : convertAll fsHead argsHead = some outs)
    (_hmand : c.isOptionalCode = false)
    (hbad : convertCode c a = none) :
    (parse_py_args (fsHead ++ (c, d) :: fsTail) (argsHead ++ a :: argsTail)).1 =
      fsHead.length := by
  induction fsHead generalizing argsHead outs with
  | nil =>
    match argsHead with
    | [] => simp [parse_py_args, hbad]
    | _ :: _ => simp at hlen
  | cons hd tl ih =>
    obtain ⟨c0, d0⟩ := hd
    match argsHead with
    | [] => simp at hlen
    | a0 :: rest =>
      simp only [convertAll] at hok
      match hc : convertCode c0 a0, hrest : convertAll tl rest with
      | none, _ =>
        rw [hc] at hok
        simp at hok
      | some cv, none =>
        rw [hc, hrest] at hok
        simp at hok
      | some cv, some outs0 =>
        simp only [List.cons_append, parse_py_args, List.append_eq, hc]
        have := ih rest outs0 (by simpa using hlen) hrest
        simp [this]

/-- Witness for C1: format "is" with arguments [True, "x"]: position 0
requires an integer but receives a boolean, so 0 positions convert. -/
theorem parse_py_args_stops_at_mismatch_witness :
    (parse_py_args
      [(FmtCode.i, none), (FmtCode.s, none)]
      [PObj.pbool true, PObj.pstr [120]] : Nat × List (CVal ℚ)).1 = 0 := by
  have h := parse_py_args_stops_at_mismatch (φ := ℚ)
    [] [(FmtCode.s, none)] [] [PObj.pstr [120]] []
    FmtCode.i none (PObj.pbool true)
    (by decide) (by decide) (by decide) (by decide)
  simpa using h

/- ===================================================================
   Hash collections: open addressing with tombstones.
   All bodies are modelled from the spec (phash.h is not in src/): linear
   probing from the hash-derived home slot, tombstones on delete, rehash
   into a table of doubled capacity when the load threshold (2/3) would be
   exceeded by an insertion.
   =================================================================== -/

/-- A slot of the open-addressing table: empty, tombstone, or a live
key/value entry. -/
inductive Slot (κ ν : Type) where
  | empty
  | tomb
  | entry (key : κ) (val : ν)
deriving DecidableEq

/-- Whether a slot holds a live entry. -/
def Slot.isEntry {κ ν : Type} : Slot κ ν → Bool
  | .entry _ _ => true
  | _ => false

/-- Whether a slot holds a live entry with the given key. -/
def Slot.hasKey {κ ν : Type} [DecidableEq κ] (k : κ) : Slot κ ν → Bool
  | .entry k0 _ => k0 = k
  | _ => false

/-- The slot at table position j (empty when out of range). -/
def slotAt {κ ν : Type} (t : List (Slot κ ν)) (j : Nat) : Slot κ ν :=
  t.getD j Slot.empty

/-- The fixed probing sequence: linear probing from the hash-derived home
slot, wrapping around the table of capacity n. -/
def probeSeq (n h : Nat) : List Nat :=
  (List.range n).map (fun j => (h + j) % n)

/-- Walk the probe positions looking for the entry with key k: skip
tombstones and mismatching entries, stop at an empty slot (not found) or at
the matching entry (found, returning its slot index and value). -/
def probeLookup {κ ν : Type} [DecidableEq κ]
    (t : List (Slot κ ν)) (k : κ) : List Nat → Option (Nat × ν)
  | [] => none
  | j :: ps =>
    match slotAt t j with
    | .empty => none
    | .tomb => probeLookup t k ps
    | .entry k0 v => if k0 = k then some (j, v) else probeLookup t k ps

/-- Walk the probe positions looking for the first free (empty or tombstone)
slot, for inserting a new key. -/
def probeFree {κ ν : Type} (t : List (Slot κ ν)) : List Nat → Option Nat
  | [] => none
  | j :: ps => if (slotAt t j).isEntry then probeFree t ps else some j

/-- Number of live entries in the table (the element count of the
collection). -/
def entryCount {κ ν : Type} (t : List (Slot κ ν)) : Nat :=
  t.countP (fun s => s.isEntry)

/-- Number of live entries holding the given key. -/
def keyCount {κ ν : Type} [DecidableEq κ] (t : List (Slot κ ν)) (k : κ) : Nat :=
  t.countP (fun s => s.hasKey k)

/-- The live key/value pairs of the table, in physical slot order. -/
def tableEntries {κ ν : Type} (t : List (Slot κ ν)) : List (κ × ν) :=
  t.filterMap (fun s =>
    match s with
    | .entry k v => some (k, v)
    | _ => none)

/-- Probe the table for key k (the shared probe of get, put and del). -/
def pdict_probe {κ ν : Type} [DecidableEq κ] (hash : κ → Nat)
    (t : List (Slot κ ν)) (k : κ) : Option (Nat × ν) :=
  probeLookup t k (probeSeq t.length (hash k))

/-- Modelled from the spec: pdict_get (phash.h not in src/) returns the value
associated with k, or the not-found sentinel (none, modelling NULL). -/
def pdict_get {κ ν : Type} [DecidableEq κ] (hash : κ → Nat)
    (t : List (Slot κ ν)) (k : κ) : Option ν :=
  (pdict_probe hash t k).map (fun r => r.2)

/-- One insertion without the resize policy: replace the value in place when
the probe finds k, otherwise claim the first free (empty or tombstone) slot
on the probe path. -/
def rawPut {κ ν : Type} [DecidableEq κ] (hash : κ → Nat)
    (t : List (Slot κ ν)) (k : κ) (v : ν) : List (Slot κ ν) :=
  match pdict_probe hash t k with
  | some (j, _) => t.set j (Slot.entry k v)
  | none =>
    match probeFree t (probeSeq t.length (hash k)) with
    | some j => t.set j (Slot.entry k v)
    | none => t

/-- Insert a list of key/value pairs in order with rawPut. -/
def insertAll {κ ν : Type} [DecidableEq κ] (hash : κ → Nat)
    (acc : List (Slot κ ν)) (l : List (κ × ν)) : List (Slot κ ν) :=
  l.foldl (fun acc kv => rawPut hash acc kv.1 kv.2) acc

/-- Modelled from the spec: the rehash step (phash.h not in src/) reinserts
every live entry into a fresh table of the given capacity, dropping
tombstones. -/
def rehash {κ ν : Type} [DecidableEq κ] (hash : κ → Nat)
    (t : List (Slot κ ν)) (newCap : Nat) : List (Slot κ ν) :=
  insertAll hash (List.replicate newCap Slot.empty) (tableEntries t)

/-- Modelled from the spec: pdict_put (phash.h not in src/). If inserting a
new key would push the load factor over the 2/3 threshold, the table is
first rehashed into a table of doubled capacity; then the entry is written. -/
def pdict_put {κ ν : Type} [DecidableEq κ] (hash : κ → Nat)
    (t : List (Slot κ ν)) (k : κ) (v : ν) : List (Slot κ ν) :=
  if (pdict_probe hash t k).isNone = true ∧
      2 * t.length < 3 * (entryCount t + 1) then
    rawPut hash (rehash hash t (2 * t.length)) k v
  else
    rawPut hash t k v

/-- Modelled from the spec: pdict_del (phash.h not in src/) marks the slot of
k as a tombstone rather than empty; absent keys leave the table unchanged. -/
def pdict_del {κ ν : Type} [DecidableEq κ] (hash : κ → Nat)
    (t : List (Slot κ ν)) (k : κ) : List (Slot κ ν) :=
  match pdict_probe hash t k with
  | some (j, _) => t.set j Slot.tomb
  | none => t

/-- Modelled from the spec: pdict_new creates an empty table with enough room
for the requested number of pairs under the 2/3 load threshold. -/
def pdict_new {κ ν : Type} (size : Nat) : List (Slot κ ν) :=
  List.replicate (2 * size + 4) Slot.empty

/-- The table holds a live entry (k, v) at some slot. -/
def HasEntry {κ ν : Type} (t : List (Slot κ ν)) (k : κ) (v : ν) : Prop :=
  ∃ j, j < t.length ∧ slotAt t j = Slot.entry k v

/-- Representation invariant of the open-addressing table: capacity at least
2, load factor within the 2/3 threshold, no duplicate keys, and every live
entry reachable by its probe sequence. -/
structure WF {κ ν : Type} [DecidableEq κ] (hash : κ → Nat)
    (t : List (Slot κ ν)) : Prop where
  len2 : 2 ≤ t.length
  load : 3 * entryCount t ≤ 2 * t.length
  nodup : ∀ k, keyCount t k ≤ 1
  find : ∀ j k v, j < t.length → slotAt t j = Slot.entry k v →
    pdict_get hash t k = some v

/-- Reading out of range yields the default. -/
theorem getD_of_ge {α : Type} (l : List α) (j : Nat) (d : α) (h : l.length ≤ j) :
    l.getD j d = d := by
  rw [List.getD_eq_getElem?_getD, List.getElem?_eq_none h]
  rfl

/-- Reading the just-written slot. -/
theorem getD_set_self {α : Type} (l : List α) (i : Nat) (a d : α)
    (h : i < l.length) : (l.set i a).getD i d = a := by
  rw [List.getD_eq_getElem?_getD, List.getElem?_set_self h]
  rfl

/-- Reading another slot after a write. -/
theorem getD_set_ne {α : Type} (l : List α) (i j : Nat) (a d : α)
    (h : i ≠ j) : (l.set i a).getD j d = l.getD j d := by
  rw [List.getD_eq_getElem?_getD, List.getElem?_set_ne h,
    ← List.getD_eq_getElem?_getD]

/-- Every in-range getD read is a member of the list. -/
theorem getD_mem {α : Type} (l : List α) (j : Nat) (d : α) (h : j < l.length) :
    l.getD j d ∈ l := by
  rw [List.getD_eq_getElem?_getD, List.getElem?_eq_getElem h]
  exact List.getElem_mem h

/-- Membership in terms of indexed reads. -/
theorem mem_iff_getD {α : Type} (l : List α) (d : α) (a : α) :
    a ∈ l ↔ ∃ j, j < l.length ∧ l.getD j d = a := by
  constructor
  · intro h
    obtain ⟨n, hn, he⟩ := List.mem_iff_getElem.mp h
    exact ⟨n, hn, by rw [List.getD_eq_getElem?_getD, List.getElem?_eq_getElem hn]; exact he⟩
  · rintro ⟨j, hj, rfl⟩
    exact getD_mem l j d hj

/-- Out-of-range slots read as empty. -/
theorem slotAt_of_ge {κ ν : Type} (t : List (Slot κ ν)) (j : Nat)
    (h : t.length ≤ j) : slotAt t j = Slot.empty :=
  getD_of_ge t j Slot.empty h

/-- Reading the just-written table slot. -/
theorem slotAt_set_self {κ ν : Type} (t : List (Slot κ ν)) (i : Nat)
    (s : Slot κ ν) (h : i < t.length) : slotAt (t.set i s) i = s :=
  getD_set_self t i s Slot.empty h

/-- Reading another table slot after a write. -/
theorem slotAt_set_ne {κ ν : Type} (t : List (Slot κ ν)) (i j : Nat)
    (s : Slot κ ν) (h : i ≠ j) : slotAt (t.set i s) j = slotAt t j :=
  getD_set_ne t i j s Slot.empty h

/-- Every in-range slot is a member of the table. -/
theorem slotAt_mem {κ ν : Type} (t : List (Slot κ ν)) (j : Nat)
    (h : j < t.length) : slotAt t j ∈ t :=
  getD_mem t j Slot.empty h

/-- Membership in terms of slot reads. -/
theorem mem_iff_slotAt {κ ν : Type} (t : List (Slot κ ν)) (s : Slot κ ν) :
    s ∈ t ↔ ∃ j, j < t.length ∧ slotAt t j = s :=
  mem_iff_getD t Slot.empty s

/-- A slot read as a live entry is within the table. -/
theorem lt_length_of_entry {κ ν : Type} (t : List (Slot κ ν)) (j : Nat)
    (k : κ) (v : ν) (h : slotAt t j = Slot.entry k v) : j < t.length := by
  by_contra hge
  rw [slotAt_of_ge t j (by omega)] at h
  exact Slot.noConfusion h

/-- Writing slot i trades the old cell's count for the new cell's count. -/
theorem countP_set_add {α : Type} (p : α → Bool) :
    ∀ (l : List α) (i : Nat) (a d : α), i < l.length →
      (l.set i a).countP p + (if p (l.getD i d) then 1 else 0) =
        l.countP p + (if p a then 1 else 0) := by
  intro l
  induction l with
  | nil => intro i a d h; simp at h
  | cons x xs ih =>
    intro i a d h
    match i with
    | 0 =>
      simp only [List.set, List.getD_cons_zero, List.countP_cons]
      omega
    | i + 1 =>
      simp only [List.set, List.getD_cons_succ, List.countP_cons]
      have := ih i a d (by simpa using h)
      omega

/-- The probe sequence visits exactly n positions. -/
theorem probeSeq_length (n h : Nat) : (probeSeq n h).length = n := by
  simp [probeSeq]

/-- Every probe position is within the table. -/
theorem probeSeq_mem_lt (n h : Nat) (hn : 0 < n) :
    ∀ j ∈ probeSeq n h, j < n := by
  intro j hj
  simp only [probeSeq, List.mem_map] at hj
  obtain ⟨a, _, rfl⟩ := hj
  exact Nat.mod_lt _ hn

/-- Linear probing visits every slot of the table. -/
theorem probeSeq_cover (n h m : Nat) (hn : 0 < n) (hm : m < n) :
    m ∈ probeSeq n h := by
  simp only [probeSeq, List.mem_map]
  have hr : h % n < n := Nat.mod_lt _ hn
  by_cases hcase : h % n ≤ m
  · refine ⟨m - h % n, List.mem_range.mpr (by omega), ?_⟩
    show (h + (m - h % n)) % n = m
    rw [Nat.add_mod, Nat.mod_eq_of_lt (show m - h % n < n by omega)]
    have he : h % n + (m - h % n) = m := by omega
    rw [he, Nat.mod_eq_of_lt hm]
  · refine ⟨m + n - h % n, List.mem_range.mpr (by omega), ?_⟩
    show (h + (m + n - h % n)) % n = m
    rw [Nat.add_mod, Nat.mod_eq_of_lt (show m + n - h % n < n by omega)]
    have he : h % n + (m + n - h % n) = m + n := by omega
    rw [he, Nat.add_mod_right, Nat.mod_eq_of_lt hm]

/-- A table with fewer entries than slots has a free slot on any probe
sequence. -/
theorem free_slot_exists {κ ν : Type} (t : List (Slot κ ν)) (hh : Nat)
    (hcnt : entryCount t < t.length) :
    ∃ j ∈ probeSeq t.length hh, (slotAt t j).isEntry = false := by
  have hn : 0 < t.length := by omega
  have hne : ¬ ∀ s ∈ t, (fun s => Slot.isEntry s) s = true := by
    intro hall
    have := List.countP_eq_length.mpr hall
    unfold entryCount at hcnt
    omega
  push_neg at hne
  obtain ⟨s, hmem, hs⟩ := hne
  obtain ⟨j, hj, he⟩ := (mem_iff_slotAt t s).mp hmem
  refine ⟨j, probeSeq_cover t.length hh j hn hj, ?_⟩
  rw [he]
  simpa using hs

/-- A successful probe returns a slot on the path holding the entry. -/
theorem probeLookup_sound {κ ν : Type} [DecidableEq κ]
    (t : List (Slot κ ν)) (k : κ) :
    ∀ (ps : List Nat) (j : Nat) (v : ν), probeLookup t k ps = some (j, v) →
      j ∈ ps ∧ slotAt t j = Slot.entry k v := by
  intro ps
  induction ps with
  | nil => intro j v h; simp [probeLookup] at h
  | cons j0 ps ih =>
    intro j v h
    cases hs : slotAt t j0 with
    | empty => simp [probeLookup, hs] at h
    | tomb =>
      simp only [probeLookup, hs] at h
      obtain ⟨hmem, he⟩ := ih j v h
      exact ⟨List.mem_cons_of_mem _ hmem, he⟩
    | entry k0 v0 =>
      simp only [probeLookup, hs] at h
      by_cases hk : k0 = k
      · rw [if_pos hk] at h
        obtain ⟨rfl, rfl⟩ : j0 = j ∧ v0 = v := by simpa using h
        exact ⟨List.mem_cons_self _ _, by rw [hs, hk]⟩
      · rw [if_neg hk] at h
        obtain ⟨hmem, he⟩ := ih j v h
        exact ⟨List.mem_cons_of_mem _ hmem, he⟩

/-- A successful free-slot search returns a non-entry slot on the path. -/
theorem probeFree_sound {κ ν : Type} (t : List (Slot κ ν)) :
    ∀ (ps : List Nat) (j : Nat), probeFree t ps = some j →
      j ∈ ps ∧ (slotAt t j).isEntry = false := by
  intro ps
  induction ps with
  | nil => intro j h; simp [probeFree] at h
  | cons j0 ps ih =>
    intro j h
    by_cases he : (slotAt t j0).isEntry = true
    · simp only [probeFree, if_pos he] at h
      obtain ⟨hmem, hne⟩ := ih j h
      exact ⟨List.mem_cons_of_mem _ hmem, hne⟩
    · simp only [probeFree, if_neg he] at h
      obtain rfl : j0 = j := by simpa using h
      exact ⟨List.mem_cons_self _ _, by simpa using he⟩

/-- The free-slot search succeeds if the path holds a non-entry slot. -/
theorem probeFree_isSome {κ ν : Type} (t : List (Slot κ ν)) :
    ∀ (ps : List Nat), (∃ j ∈ ps, (slotAt t j).isEntry = false) →
      ∃ j, probeFree t ps = some j := by
  intro ps
  induction ps with
  | nil =>
    rintro ⟨j, hj, _⟩
    simp at hj
  | cons j0 ps ih =>
    rintro ⟨j, hj, hfree⟩
    by_cases he : (slotAt t j0).isEntry = true
    · rcases List.mem_cons.mp hj with rfl | hmem
      · rw [he] at hfree
        cases hfree
      · obtain ⟨j1, h1⟩ := ih ⟨j, hmem, hfree⟩
        exact ⟨j1, by simp only [probeFree, if_pos he]; exact h1⟩
    · exact ⟨j0, by simp only [probeFree, if_neg he]⟩

/-- A slot the probe for k walks past: a tombstone or an entry with another
key. -/
def ContinueSlot {κ ν : Type} [DecidableEq κ] (k : κ) (s : Slot κ ν) : Prop :=
  s ≠ Slot.empty ∧ s.hasKey k = false

/-- The probe for k steps over a continue slot. -/
theorem probeLookup_cons_continue {κ ν : Type} [DecidableEq κ]
    (t : List (Slot κ ν)) (k : κ) (j0 : Nat) (ps : List Nat)
    (h : ContinueSlot k (slotAt t j0)) :
    probeLookup t k (j0 :: ps) = probeLookup t k ps := by
  obtain ⟨h1, h2⟩ := h
  cases hs : slotAt t j0 with
  | empty => exact absurd hs h1
  | tomb => simp [probeLookup, hs]
  | entry k0 v0 =>
    rw [hs] at h2
    have hk : ¬ (k0 = k) := by simpa [Slot.hasKey] using h2
    simp [probeLookup, hs, hk]

/-- Overwriting a continue slot with another continue slot leaves every
probe for k unchanged. -/
theorem probeLookup_set_continue {κ ν : Type} [DecidableEq κ]
    (t : List (Slot κ ν)) (k : κ) (j : Nat) (s : Slot κ ν)
    (hold : ContinueSlot k (slotAt t j))
    (hnew : ContinueSlot k s) :
    ∀ ps, probeLookup (t.set j s) k ps = probeLookup t k ps := by
  have hjlt : j < t.length := by
    by_contra hge
    exact hold.1 (slotAt_of_ge t j (by omega))
  intro ps
  induction ps with
  | nil => rfl
  | cons j0 ps ih =>
    by_cases hj0 : j0 = j
    · subst hj0
      rw [probeLookup_cons_continue t k j0 ps hold]
      rw [probeLookup_cons_continue (t.set j0 s) k j0 ps
        (by rw [slotAt_set_self t j0 s hjlt]; exact hnew)]
      exact ih
    · have hset := slotAt_set_ne t j j0 s (Ne.symm hj0)
      cases hs : slotAt t j0 with
      | empty => simp [probeLookup, hset, hs]
      | tomb =>
        simp only [probeLookup, hset, hs]
        exact ih
      | entry k0 v0 =>
        by_cases hk : k0 = k
        · simp [probeLookup, hset, hs, hk]
        · simp only [probeLookup, hset, hs, if_neg hk]
          exact ih

/-- Writing into an empty slot cannot lose a previously successful probe. -/
theorem probeLookup_set_of_empty {κ ν : Type} [DecidableEq κ]
    (t : List (Slot κ ν)) (k : κ) (j : Nat) (s : Slot κ ν)
    (hemp : slotAt t j = Slot.empty) :
    ∀ (ps : List Nat) (j1 : Nat) (v1 : ν), probeLookup t k ps = some (j1, v1) →
      probeLookup (t.set j s) k ps = some (j1, v1) := by
  intro ps
  induction ps with
  | nil => intro j1 v1 h; simp [probeLookup] at h
  | cons j0 ps ih =>
    intro j1 v1 h
    by_cases hj0 : j0 = j
    · subst hj0
      simp [probeLookup, hemp] at h
    · have hset := slotAt_set_ne t j j0 s (Ne.symm hj0)
      cases hs : slotAt t j0 with
      | empty => simp [probeLookup, hs] at h
      | tomb =>
        simp only [probeLookup, hs] at h
        simp only [probeLookup, hset, hs]
        exact ih j1 v1 h
      | entry k0 v0 =>
        by_cases hk : k0 = k
        · simp only [probeLookup, hs, if_pos hk] at h
          simp only [probeLookup, hset, hs, if_pos hk]
          exact h
        · simp only [probeLookup, hs, if_neg hk] at h
          simp only [probeLookup, hset, hs, if_neg hk]
          exact ih j1 v1 h

/-- Replacing the found entry in place: the probe now returns the new
value at the same slot. -/
theorem probeLookup_set_found {κ ν : Type} [DecidableEq κ]
    (t : List (Slot κ ν)) (k : κ) (v : ν) :
    ∀ (ps : List Nat) (j : Nat) (w : ν), probeLookup t k ps = some (j, w) →
      probeLookup (t.set j (Slot.entry k v)) k ps = some (j, v) := by
  intro ps
  induction ps with
  | nil => intro j w h; simp [probeLookup] at h
  | cons j0 ps ih =>
    intro j w h
    cases hs : slotAt t j0 with
    | empty => simp [probeLookup, hs] at h
    | tomb =>
      simp only [probeLookup, hs] at h
      have hj := (probeLookup_sound t k ps j w h).2
      have hne : j ≠ j0 := by
        intro hq
        subst hq
        rw [hs] at hj
        exact Slot.noConfusion hj
      have hset := slotAt_set_ne t j j0 (Slot.entry k v) hne
      simp only [probeLookup, hset, hs]
      exact ih j w h
    | entry k0 v0 =>
      by_cases hk : k0 = k
      · simp only [probeLookup, hs, if_pos hk] at h
        obtain ⟨rfl, rfl⟩ : j0 = j ∧ v0 = w := by simpa using h
        have hlt : j0 < t.length := lt_length_of_entry t j0 k0 v0 hs
        have hset := slotAt_set_self t j0 (Slot.entry k v) hlt
        simp [probeLookup, hset]
      · simp only [probeLookup, hs, if_neg hk] at h
        have hj := (probeLookup_sound t k ps j w h).2
        have hne : j ≠ j0 := by
          intro hq
          subst hq
          rw [hs] at hj
          injection hj with h1 _
          exact hk h1
        have hset := slotAt_set_ne t j j0 (Slot.entry k v) hne
        simp only [probeLookup, hset, hs, if_neg hk]
        exact ih j w h

/-- Inserting a new key at the free slot found on its probe path makes the
key findable there. -/
theorem probeFree_insert {κ ν : Type} [DecidableEq κ]
    (t : List (Slot κ ν)) (k : κ) (v : ν) :
    ∀ (ps : List Nat) (j : Nat), probeFree t ps = some j →
      probeLookup t k ps = none → j < t.length →
      probeLookup (t.set j (Slot.entry k v)) k ps = some (j, v) := by
  intro ps
  induction ps with
  | nil => intro j h _ _; simp [probeFree] at h
  | cons j0 ps ih =>
    intro j hfree hnone hlt
    by_cases he : (slotAt t j0).isEntry = true
    · simp only [probeFree, if_pos he] at hfree
      cases hs : slotAt t j0 with
      | empty => rw [hs] at he; simp [Slot.isEntry] at he
      | tomb => rw [hs] at he; simp [Slot.isEntry] at he
      | entry k0 v0 =>
        by_cases hk : k0 = k
        · simp [probeLookup, hs, hk] at hnone
        · simp only [probeLookup, hs, if_neg hk] at hnone
          have hj0ne : j ≠ j0 := by
            intro hq
            subst hq
            obtain ⟨_, hfe⟩ := probeFree_sound t ps j hfree
            rw [hs] at hfe
            simp [Slot.isEntry] at hfe
          have hset := slotAt_set_ne t j j0 (Slot.entry k v) hj0ne
          simp only [probeLookup, hset, hs, if_neg hk]
          exact ih j hfree hnone hlt
    · simp only [probeFree, if_neg he] at hfree
      obtain rfl : j0 = j := by simpa using hfree
      have hset := slotAt_set_self t j0 (Slot.entry k v) hlt
      simp [probeLookup, hset]

/-- A probe hit returns a slot of the table holding the probed key. -/
theorem pdict_probe_sound {κ ν : Type} [DecidableEq κ] (hash : κ → Nat)
    (t : List (Slot κ ν)) (k : κ) (j : Nat) (v : ν)
    (h : pdict_probe hash t k = some (j, v)) :
    j < t.length ∧ slotAt t j = Slot.entry k v := by
  obtain ⟨_, he⟩ := probeLookup_sound t k _ j v h
  exact ⟨lt_length_of_entry t j k v he, he⟩

/-- If no slot holds the key, the probe misses. -/
theorem pdict_probe_eq_none {κ ν : Type} [DecidableEq κ] (hash : κ → Nat)
    (t : List (Slot κ ν)) (k : κ)
    (h : ∀ v, ¬ HasEntry t k v) : pdict_probe hash t k = none := by
  match hp : pdict_probe hash t k with
  | none => rfl
  | some (j, v) =>
    obtain ⟨hlt, he⟩ := pdict_probe_sound hash t k j v hp
    exact absurd ⟨j, hlt, he⟩ (h v)

/-- A successful get comes from a live entry of the table. -/
theorem pdict_get_sound {κ ν : Type} [DecidableEq κ] (hash : κ → Nat)
    (t : List (Slot κ ν)) (k : κ) (v : ν)
    (h : pdict_get hash t k = some v) : HasEntry t k v := by
  unfold pdict_get at h
  match hp : pdict_probe hash t k with
  | none => rw [hp] at h; simp at h
  | some (j, w) =>
    rw [hp] at h
    simp only [Option.map_some', Option.some_inj] at h
    obtain ⟨hlt, he⟩ := pdict_probe_sound hash t k j w hp
    exact ⟨j, hlt, by rw [he, h]⟩

/-- If no slot holds the key, get returns the not-found sentinel. -/
theorem pdict_get_eq_none {κ ν : Type} [DecidableEq κ] (hash : κ → Nat)
    (t : List (Slot κ ν)) (k : κ)
    (h : ∀ v, ¬ HasEntry t k v) : pdict_get hash t k = none := by
  unfold pdict_get
  rw [pdict_probe_eq_none hash t k h]
  rfl

/-- Two tables holding the same entries for k agree on get, as long as both
satisfy the findability property for k. -/
theorem pdict_get_congr {κ ν : Type} [DecidableEq κ] (hash : κ → Nat)
    (t1 t2 : List (Slot κ ν)) (k : κ)
    (hfind1 : ∀ j v, j < t1.length → slotAt t1 j = Slot.entry k v →
      pdict_get hash t1 k = some v)
    (hfind2 : ∀ j v, j < t2.length → slotAt t2 j = Slot.entry k v →
      pdict_get hash t2 k = some v)
    (hiff : ∀ v, HasEntry t1 k v ↔ HasEntry t2 k v) :
    pdict_get hash t1 k = pdict_get hash t2 k := by
  match h1 : pdict_get hash t1 k with
  | some v =>
    obtain ⟨j, hj, he⟩ := (hiff v).mp (pdict_get_sound hash t1 k v h1)
    exact (hfind2 j v hj he).symm
  | none =>
    match h2 : pdict_get hash t2 k with
    | none => rfl
    | some v =>
      obtain ⟨j, hj, he⟩ := (hiff v).mpr (pdict_get_sound hash t2 k v h2)
      rw [hfind1 j v hj he] at h1
      exact Option.noConfusion h1

/-- Slot-count form of set updates, specialized to tables. -/
theorem countP_set_slot {κ ν : Type} (p : Slot κ ν → Bool)
    (t : List (Slot κ ν)) (j : Nat) (s : Slot κ ν) (h : j < t.length) :
    (t.set j s).countP p + (if p (slotAt t j) then 1 else 0) =
      t.countP p + (if p s then 1 else 0) :=
  countP_set_add p t j s Slot.empty h

/-- A position satisfying the predicate forces a positive count. -/
theorem countP_pos_of_getD {α : Type} (p : α → Bool) (l : List α) (i : Nat)
    (d : α) (hi : i < l.length) (hp : p (l.getD i d) = true) :
    1 ≤ l.countP p := by
  by_contra hc
  have h0 : l.countP p = 0 := by omega
  exact absurd hp (by simpa using List.countP_eq_zero.mp h0 _ (getD_mem l i d hi))

/-- Two distinct positions satisfying the predicate force a count of at
least two. -/
theorem two_le_countP {α : Type} (p : α → Bool) :
    ∀ (l : List α) (i j : Nat) (d : α), i < l.length → j < l.length → i ≠ j →
      p (l.getD i d) = true → p (l.getD j d) = true → 2 ≤ l.countP p := by
  intro l
  induction l with
  | nil => intro i j d hi _ _ _ _; simp at hi
  | cons x xs ih =>
    intro i j d hi hj hne hpi hpj
    match i, j with
    | 0, 0 => exact absurd rfl hne
    | 0, j + 1 =>
      rw [List.getD_cons_zero] at hpi
      rw [List.getD_cons_succ] at hpj
      have h1 := countP_pos_of_getD p xs j d (by simpa using hj) hpj
      rw [List.countP_cons, hpi]
      show 2 ≤ List.countP p xs + 1
      omega
    | i + 1, 0 =>
      rw [List.getD_cons_zero] at hpj
      rw [List.getD_cons_succ] at hpi
      have h1 := countP_pos_of_getD p xs i d (by simpa using hi) hpi
      rw [List.countP_cons, hpj]
      show 2 ≤ List.countP p xs + 1
      omega
    | i + 1, j + 1 =>
      rw [List.getD_cons_succ] at hpi hpj
      have h2 := ih i j d (by simpa using hi) (by simpa using hj)
        (by omega) hpi hpj
      rw [List.countP_cons]
      omega

/-- Under the no-duplicate-keys bound, the entry holding a key is unique. -/
theorem hasEntry_unique {κ ν : Type} [DecidableEq κ] (t : List (Slot κ ν))
    (k : κ) (hnd : keyCount t k ≤ 1) (j1 j2 : Nat) (v1 v2 : ν)
    (h1 : j1 < t.length) (e1 : slotAt t j1 = Slot.entry k v1)
    (h2 : j2 < t.length) (e2 : slotAt t j2 = Slot.entry k v2) :
    j1 = j2 ∧ v1 = v2 := by
  by_cases hq : j1 = j2
  · subst hq
    rw [e1] at e2
    injection e2 with _ hv
    exact ⟨rfl, hv⟩
  · have := two_le_countP (fun s => Slot.hasKey k s) t j1 j2 Slot.empty h1 h2 hq
      (by show Slot.hasKey k (slotAt t j1) = true; rw [e1]; simp [Slot.hasKey])
      (by show Slot.hasKey k (slotAt t j2) = true; rw [e2]; simp [Slot.hasKey])
    unfold keyCount at hnd
    omega

/-- Absence of a key in counting terms. -/
theorem keyCount_eq_zero_iff {κ ν : Type} [DecidableEq κ]
    (t : List (Slot κ ν)) (k : κ) :
    keyCount t k = 0 ↔ ∀ v, ¬ HasEntry t k v := by
  unfold keyCount
  rw [List.countP_eq_zero]
  constructor
  · rintro h v ⟨j, hj, he⟩
    have := h _ (slotAt_mem t j hj)
    rw [he] at this
    simp [Slot.hasKey] at this
  · intro h s hs
    cases s with
    | empty => simp [Slot.hasKey]
    | tomb => simp [Slot.hasKey]
    | entry k0 v =>
      simp only [Slot.hasKey, decide_eq_true_eq]
      intro hk
      subst hk
      obtain ⟨j, hj, he⟩ := (mem_iff_slotAt t _).mp hs
      exact h v ⟨j, hj, he⟩

/-- A live entry forces a positive key count. -/
theorem keyCount_pos_of_hasEntry {κ ν : Type} [DecidableEq κ]
    (t : List (Slot κ ν)) (k : κ) (v : ν) (h : HasEntry t k v) :
    1 ≤ keyCount t k := by
  by_contra hc
  have h0 : keyCount t k = 0 := by omega
  exact (keyCount_eq_zero_iff t k).mp h0 v h

/-- Writing a slot that neither held nor receives an entry of key k2 leaves
the k2 entries unchanged. -/
theorem hasEntry_set_iff {κ ν : Type} (t : List (Slot κ ν)) (j : Nat)
    (s : Slot κ ν) (k2 : κ) (v2 : ν) (hjlt : j < t.length)
    (hold : ∀ w, slotAt t j ≠ Slot.entry k2 w)
    (hnew : ∀ w, s ≠ Slot.entry k2 w) :
    HasEntry (t.set j s) k2 v2 ↔ HasEntry t k2 v2 := by
  constructor
  · rintro ⟨j1, hj1, he⟩
    rw [List.length_set] at hj1
    by_cases hq : j = j1
    · subst hq
      rw [slotAt_set_self t j s hjlt] at he
      exact absurd he (hnew v2)
    · rw [slotAt_set_ne t j j1 s hq] at he
      exact ⟨j1, hj1, he⟩
  · rintro ⟨j1, hj1, he⟩
    by_cases hq : j = j1
    · subst hq
      exact absurd he (hold v2)
    · exact ⟨j1, by rw [List.length_set]; exact hj1,
        by rw [slotAt_set_ne t j j1 s hq]; exact he⟩

/-- rawPut on a present key replaces the value in place. -/
theorem rawPut_replace {κ ν : Type} [DecidableEq κ] (hash : κ → Nat)
    (t : List (Slot κ ν)) (k : κ) (v : ν) (j : Nat) (w : ν)
    (hp : pdict_probe hash t k = some (j, w)) :
    rawPut hash t k v = t.set j (Slot.entry k v) := by
  simp only [rawPut, hp]

/-- Facts about rawPut on a present key: same size and counts, the key now
maps to the new value, everything else untouched. -/
theorem rawPut_replace_facts {κ ν : Type} [DecidableEq κ] (hash : κ → Nat)
    (t : List (Slot κ ν)) (k : κ) (v : ν) (j : Nat) (w : ν)
    (hp : pdict_probe hash t k = some (j, w)) :
    (rawPut hash t k v).length = t.length ∧
    entryCount (rawPut hash t k v) = entryCount t ∧
    (∀ k2, keyCount (rawPut hash t k v) k2 = keyCount t k2) ∧
    HasEntry (rawPut hash t k v) k v ∧
    (∀ k2 v2, k2 ≠ k → (HasEntry (rawPut hash t k v) k2 v2 ↔ HasEntry t k2 v2)) ∧
    pdict_get hash (rawPut hash t k v) k = some v ∧
    (∀ k2, k2 ≠ k → pdict_get hash (rawPut hash t k v) k2 = pdict_get hash t k2) ∧
    (∀ j1, slotAt (rawPut hash t k v) j1 = Slot.tomb → slotAt t j1 = Slot.tomb) := by
  obtain ⟨hjlt, hslot⟩ := pdict_probe_sound hash t k j w hp
  rw [rawPut_replace hash t k v j w hp]
  refine ⟨List.length_set t j _, ?_, ?_, ?_, ?_, ?_, ?_, ?_⟩
  · have h := countP_set_slot (fun s => s.isEntry) t j (Slot.entry k v) hjlt
    rw [hslot] at h
    show entryCount (t.set j (Slot.entry k v)) = entryCount t
    unfold entryCount
    simpa [Slot.isEntry] using h
  · intro k2
    have h := countP_set_slot (fun s => Slot.hasKey k2 s) t j (Slot.entry k v) hjlt
    rw [hslot] at h
    show keyCount (t.set j (Slot.entry k v)) k2 = keyCount t k2
    unfold keyCount
    simp only [] at h
    exact Nat.add_right_cancel h
  · exact ⟨j, by rw [List.length_set]; exact hjlt, slotAt_set_self t j _ hjlt⟩
  · intro k2 v2 hk2
    apply hasEntry_set_iff t j _ k2 v2 hjlt
    · intro w2 hcon
      rw [hslot] at hcon
      injection hcon with h1 _
      exact hk2 h1.symm
    · intro w2 hcon
      injection hcon with h1 _
      exact hk2 h1.symm
  · have hp' : probeLookup t k (probeSeq t.length (hash k)) = some (j, w) := hp
    have hfound := probeLookup_set_found t k v (probeSeq t.length (hash k)) j w hp'
    unfold pdict_get pdict_probe
    rw [List.length_set, hfound]
    rfl
  · intro k2 hk2
    have hcont := probeLookup_set_continue t k2 j (Slot.entry k v)
      (by
        rw [hslot]
        refine ⟨fun hq => Slot.noConfusion hq, ?_⟩
        simp only [Slot.hasKey, decide_eq_false_iff_not]
        exact fun hq => hk2 hq.symm)
      (by
        refine ⟨fun hq => Slot.noConfusion hq, ?_⟩
        simp only [Slot.hasKey, decide_eq_false_iff_not]
        exact fun hq => hk2 hq.symm)
    unfold pdict_get pdict_probe
    rw [List.length_set, hcont]
  · intro j1 htomb
    by_cases hq : j = j1
    · subst hq
      rw [slotAt_set_self t j _ hjlt] at htomb
      exact Slot.noConfusion htomb
    · rw [slotAt_set_ne t j j1 _ hq] at htomb
      exact htomb

/-- rawPut on an absent key claims a free slot on the probe path. -/
theorem rawPut_insert_slot {κ ν : Type} [DecidableEq κ] (hash : κ → Nat)
    (t : List (Slot κ ν)) (k : κ) (v : ν)
    (hp : pdict_probe hash t k = none) (hroom : entryCount t < t.length) :
    ∃ j, j < t.length ∧ (slotAt t j).isEntry = false ∧
      rawPut hash t k v = t.set j (Slot.entry k v) ∧
      pdict_get hash (rawPut hash t k v) k = some v := by
  have hn : 0 < t.length := by omega
  obtain ⟨j0, hj0mem, hj0free⟩ := free_slot_exists t (hash k) hroom
  obtain ⟨j, hj⟩ := probeFree_isSome t _ ⟨j0, hj0mem, hj0free⟩
  obtain ⟨hjmem, hjfree⟩ := probeFree_sound t _ j hj
  have hjlt : j < t.length := probeSeq_mem_lt t.length (hash k) hn j hjmem
  have heq : rawPut hash t k v = t.set j (Slot.entry k v) := by
    simp only [rawPut, hp, hj]
  have hp' : probeLookup t k (probeSeq t.length (hash k)) = none := hp
  have hfound := probeFree_insert t k v (probeSeq t.length (hash k)) j hj hp' hjlt
  refine ⟨j, hjlt, hjfree, heq, ?_⟩
  unfold pdict_get pdict_probe
  rw [heq, List.length_set, hfound]
  rfl

/-- A non-entry slot is empty or a tombstone. -/
theorem slot_not_entry {κ ν : Type} (s : Slot κ ν) (h : s.isEntry = false) :
    s = Slot.empty ∨ s = Slot.tomb := by
  cases s with
  | empty => exact Or.inl rfl
  | tomb => exact Or.inr rfl
  | entry k v => simp [Slot.isEntry] at h

/-- Facts about rawPut on an absent key inserted into a table with room;
the findability hypothesis is the carried invariant. -/
theorem rawPut_insert_facts {κ ν : Type} [DecidableEq κ] (hash : κ → Nat)
    (t : List (Slot κ ν)) (k : κ) (v : ν)
    (hp : pdict_probe hash t k = none)
    (hroom : entryCount t < t.length)
    (hfind : ∀ j1 k1 v1, j1 < t.length → slotAt t j1 = Slot.entry k1 v1 →
      pdict_get hash t k1 = some v1) :
    (rawPut hash t k v).length = t.length ∧
    entryCount (rawPut hash t k v) = entryCount t + 1 ∧
    keyCount (rawPut hash t k v) k = keyCount t k + 1 ∧
    (∀ k2, k2 ≠ k → keyCount (rawPut hash t k v) k2 = keyCount t k2) ∧
    HasEntry (rawPut hash t k v) k v ∧
    (∀ k2 v2, k2 ≠ k → (HasEntry (rawPut hash t k v) k2 v2 ↔ HasEntry t k2 v2)) ∧
    pdict_get hash (rawPut hash t k v) k = some v ∧
    (∀ k2, k2 ≠ k → pdict_get hash (rawPut hash t k v) k2 = pdict_get hash t k2) ∧
    (∀ j1 k1 v1, j1 < (rawPut hash t k v).length →
      slotAt (rawPut hash t k v) j1 = Slot.entry k1 v1 →
      pdict_get hash (rawPut hash t k v) k1 = some v1) ∧
    (∀ j1, slotAt (rawPut hash t k v) j1 = Slot.tomb → slotAt t j1 = Slot.tomb) := by
  obtain ⟨j, hjlt, hjfree, heq, hget⟩ := rawPut_insert_slot hash t k v hp hroom
  rw [heq] at hget
  rw [heq]
  have hfk : ∀ k2 : κ, Slot.hasKey k2 (slotAt t j) = false := by
    intro k2
    rcases slot_not_entry _ hjfree with hse | hst
    · rw [hse]; rfl
    · rw [hst]; rfl
  have hhf : ∀ k2 v2, k2 ≠ k →
      (HasEntry (t.set j (Slot.entry k v)) k2 v2 ↔ HasEntry t k2 v2) := by
    intro k2 v2 hk2
    apply hasEntry_set_iff t j _ k2 v2 hjlt
    · intro w2 hcon
      rcases slot_not_entry _ hjfree with hse | hst
      · rw [hse] at hcon; exact Slot.noConfusion hcon
      · rw [hst] at hcon; exact Slot.noConfusion hcon
    · intro w2 hcon
      injection hcon with h1 _
      exact hk2 h1.symm
  have hgf : ∀ k2, k2 ≠ k →
      pdict_get hash (t.set j (Slot.entry k v)) k2 = pdict_get hash t k2 := by
    intro k2 hk2
    rcases slot_not_entry _ hjfree with hse | hst
    · match hg : pdict_get hash t k2 with
      | some v2 =>
        unfold pdict_get pdict_probe at hg ⊢
        match hpk2 : probeLookup t k2 (probeSeq t.length (hash k2)) with
        | none => rw [hpk2] at hg; simp at hg
        | some (j2, w2) =>
          rw [hpk2] at hg
          have hmono := probeLookup_set_of_empty t k2 j (Slot.entry k v) hse
            (probeSeq t.length (hash k2)) j2 w2 hpk2
          rw [List.length_set, hmono]
          exact hg
      | none =>
        have habs : ∀ v2, ¬ HasEntry t k2 v2 := by
          intro v2 hv2
          obtain ⟨j2, hj2, he2⟩ := hv2
          rw [hfind j2 k2 v2 hj2 he2] at hg
          exact Option.noConfusion hg
        have habs2 : ∀ v2, ¬ HasEntry (t.set j (Slot.entry k v)) k2 v2 :=
          fun v2 hv2 => habs v2 ((hhf k2 v2 hk2).mp hv2)
        rw [pdict_get_eq_none hash _ k2 habs2]
    · have hcont := probeLookup_set_continue t k2 j (Slot.entry k v)
        (by rw [hst]; exact ⟨fun hq => Slot.noConfusion hq, rfl⟩)
        ⟨fun hq => Slot.noConfusion hq,
          by
            simp only [Slot.hasKey, decide_eq_false_iff_not]
            exact fun hq => hk2 hq.symm⟩
      unfold pdict_get pdict_probe
      rw [List.length_set, hcont]
  refine ⟨List.length_set t j _, ?_, ?_, ?_, ?_, hhf, hget, hgf, ?_, ?_⟩
  · have h := countP_set_slot (fun s => s.isEntry) t j (Slot.entry k v) hjlt
    simp only [] at h
    have hcond : ¬ ((slotAt t j).isEntry = true) := by simp [hjfree]
    rw [if_neg hcond, if_pos (show (Slot.entry k v : Slot κ ν).isEntry = true from rfl)] at h
    show entryCount (t.set j (Slot.entry k v)) = entryCount t + 1
    unfold entryCount
    omega
  · have h := countP_set_slot (fun s => Slot.hasKey k s) t j (Slot.entry k v) hjlt
    simp only [] at h
    have hcond : ¬ (Slot.hasKey k (slotAt t j) = true) := by simp [hfk k]
    have hnk : Slot.hasKey k (Slot.entry k v) = true := by simp [Slot.hasKey]
    rw [if_neg hcond, if_pos hnk] at h
    show keyCount (t.set j (Slot.entry k v)) k = keyCount t k + 1
    unfold keyCount
    omega
  · intro k2 hk2
    have h := countP_set_slot (fun s => Slot.hasKey k2 s) t j (Slot.entry k v) hjlt
    simp only [] at h
    have hcond : ¬ (Slot.hasKey k2 (slotAt t j) = true) := by simp [hfk k2]
    have hnk : ¬ (Slot.hasKey k2 (Slot.entry k v) = true) := by
      simp only [Slot.hasKey, decide_eq_true_eq]
      exact fun hq => hk2 hq.symm
    rw [if_neg hcond, if_neg hnk] at h
    show keyCount (t.set j (Slot.entry k v)) k2 = keyCount t k2
    unfold keyCount
    omega
  · exact ⟨j, by rw [List.length_set]; exact hjlt, slotAt_set_self t j _ hjlt⟩
  · intro j1 k1 v1 hj1 he1
    rw [List.length_set] at hj1
    by_cases hq : j = j1
    · subst hq
      rw [slotAt_set_self t j _ hjlt] at he1
      injection he1 with h1 h2
      subst h1
      subst h2
      exact hget
    · rw [slotAt_set_ne t j j1 _ hq] at he1
      by_cases hk1 : k1 = k
      · subst hk1
        have hcontra := hfind j1 k1 v1 hj1 he1
        unfold pdict_get at hcontra
        rw [hp] at hcontra
        exact Option.noConfusion hcontra
      · rw [hgf k1 hk1]
        exact hfind j1 k1 v1 hj1 he1
  · intro j1 htomb
    by_cases hq : j = j1
    · subst hq
      rw [slotAt_set_self t j _ hjlt] at htomb
      exact Slot.noConfusion htomb
    · rw [slotAt_set_ne t j j1 _ hq] at htomb
      exact htomb

/-- Delete semantics: the invariant is preserved, the deleted key reads as
absent, all other keys are untouched, and a present key leaves a tombstone
(not an empty slot) behind. -/
theorem pdict_del_spec {κ ν : Type} [DecidableEq κ] (hash : κ → Nat)
    (t : List (Slot κ ν)) (k : κ) (hwf : WF hash t) :
    WF hash (pdict_del hash t k) ∧
    pdict_get hash (pdict_del hash t k) k = none ∧
    (∀ k2, k2 ≠ k → pdict_get hash (pdict_del hash t k) k2 = pdict_get hash t k2) ∧
    (pdict_get hash t k ≠ none →
      ∃ j, j < (pdict_del hash t k).length ∧
        slotAt (pdict_del hash t k) j = Slot.tomb) := by
  match hp : pdict_probe hash t k with
  | none =>
    have hdel : pdict_del hash t k = t := by simp only [pdict_del, hp]
    rw [hdel]
    refine ⟨hwf, ?_, fun k2 _ => rfl, ?_⟩
    · unfold pdict_get
      rw [hp]
      rfl
    · intro hne
      unfold pdict_get at hne
      rw [hp] at hne
      exact absurd rfl hne
  | some (j, w) =>
    obtain ⟨hjlt, hslot⟩ := pdict_probe_sound hash t k j w hp
    have hdel : pdict_del hash t k = t.set j Slot.tomb := by simp only [pdict_del, hp]
    rw [hdel]
    have hkc : keyCount (t.set j Slot.tomb) k = 0 := by
      have h := countP_set_slot (fun s => Slot.hasKey k s) t j Slot.tomb hjlt
      simp only [] at h
      have hcond : Slot.hasKey k (slotAt t j) = true := by
        rw [hslot]
        simp [Slot.hasKey]
      have htf : ¬ (Slot.hasKey k (Slot.tomb : Slot κ ν) = true) := by
        simp [Slot.hasKey]
      rw [if_pos hcond, if_neg htf] at h
      have hle := hwf.nodup k
      have hge := keyCount_pos_of_hasEntry t k w ⟨j, hjlt, hslot⟩
      unfold keyCount at *
      omega
    have habs : ∀ v2, ¬ HasEntry (t.set j Slot.tomb) k v2 :=
      (keyCount_eq_zero_iff _ k).mp hkc
    have hgnone : pdict_get hash (t.set j Slot.tomb) k = none :=
      pdict_get_eq_none hash _ k habs
    have hkc2 : ∀ k2, k2 ≠ k →
        keyCount (t.set j Slot.tomb) k2 = keyCount t k2 := by
      intro k2 hk2
      have h := countP_set_slot (fun s => Slot.hasKey k2 s) t j Slot.tomb hjlt
      simp only [] at h
      have hcond : ¬ (Slot.hasKey k2 (slotAt t j) = true) := by
        rw [hslot]
        simp only [Slot.hasKey, decide_eq_true_eq]
        exact fun hq => hk2 hq.symm
      have htf : ¬ (Slot.hasKey k2 (Slot.tomb : Slot κ ν) = true) := by
        simp [Slot.hasKey]
      rw [if_neg hcond, if_neg htf] at h
      unfold keyCount
      omega
    have hgf : ∀ k2, k2 ≠ k →
        pdict_get hash (t.set j Slot.tomb) k2 = pdict_get hash t k2 := by
      intro k2 hk2
      have hcont := probeLookup_set_continue t k2 j Slot.tomb
        (by
          rw [hslot]
          exact ⟨fun hq => Slot.noConfusion hq, by
            simp only [Slot.hasKey, decide_eq_false_iff_not]
            exact fun hq => hk2 hq.symm⟩)
        ⟨fun hq => Slot.noConfusion hq, rfl⟩
      unfold pdict_get pdict_probe
      rw [List.length_set, hcont]
    refine ⟨⟨?_, ?_, ?_, ?_⟩, hgnone, hgf, ?_⟩
    · rw [List.length_set]
      exact hwf.len2
    · have h := countP_set_slot (fun s => s.isEntry) t j Slot.tomb hjlt
      simp only [] at h
      have hcond : (slotAt t j).isEntry = true := by rw [hslot]; rfl
      have htf : ¬ ((Slot.tomb : Slot κ ν).isEntry = true) := by
        simp [Slot.isEntry]
      rw [if_pos hcond, if_neg htf] at h
      have hload := hwf.load
      rw [List.length_set]
      unfold entryCount at *
      omega
    · intro k2
      by_cases hq : k2 = k
      · subst hq
        rw [hkc]
        omega
      · rw [hkc2 k2 hq]
        exact hwf.nodup k2
    · intro j1 k1 v1 hj1 he1
      rw [List.length_set] at hj1
      by_cases hq : j = j1
      · subst hq
        rw [slotAt_set_self t j _ hjlt] at he1
        exact Slot.noConfusion he1
      · by_cases hk1 : k1 = k
        · subst hk1
          exact absurd ⟨j1, by rw [List.length_set]; exact hj1, he1⟩ (habs v1)
        · rw [hgf k1 hk1]
          rw [slotAt_set_ne t j j1 _ hq] at he1
          exact hwf.find j1 k1 v1 hj1 he1
    · intro _
      exact ⟨j, by rw [List.length_set]; exact hjlt, slotAt_set_self t j _ hjlt⟩

/-- Inserting a list of pairwise-new keys with rawPut: sizes, counts, the
findability invariant, the resulting entry set, and no new tombstones. -/
theorem insertAll_spec {κ ν : Type} [DecidableEq κ] (hash : κ → Nat) :
    ∀ (l : List (κ × ν)) (acc : List (Slot κ ν)),
      (∀ k, l.countP (fun kv => decide (kv.1 = k)) + keyCount acc k ≤ 1) →
      (∀ j k v, j < acc.length → slotAt acc j = Slot.entry k v →
        pdict_get hash acc k = some v) →
      entryCount acc + l.length < acc.length →
      (insertAll hash acc l).length = acc.length ∧
      entryCount (insertAll hash acc l) = entryCount acc + l.length ∧
      (∀ k, keyCount (insertAll hash acc l) k =
        keyCount acc k + l.countP (fun kv => decide (kv.1 = k))) ∧
      (∀ j k v, j < (insertAll hash acc l).length →
        slotAt (insertAll hash acc l) j = Slot.entry k v →
        pdict_get hash (insertAll hash acc l) k = some v) ∧
      (∀ k v, HasEntry (insertAll hash acc l) k v ↔
        HasEntry acc k v ∨ (k, v) ∈ l) ∧
      (∀ j, slotAt (insertAll hash acc l) j = Slot.tomb →
        slotAt acc j = Slot.tomb) := by
  intro l
  induction l with
  | nil =>
    intro acc h1 h2 h3
    refine ⟨rfl, by simp [insertAll], by simp [insertAll], h2, ?_, fun j h => h⟩
    intro k v
    simp [insertAll]
  | cons kv rest ih =>
    intro acc h1 h2 h3
    obtain ⟨k0, v0⟩ := kv
    rw [List.length_cons] at h3
    have h1k0 := h1 k0
    rw [List.countP_cons,
      if_pos (show decide ((k0, v0).1 = k0) = true by simp)] at h1k0
    have hkc0 : keyCount acc k0 = 0 := by omega
    have hcrest0 : rest.countP (fun kv => decide (kv.1 = k0)) = 0 := by omega
    have habs : ∀ v, ¬ HasEntry acc k0 v := (keyCount_eq_zero_iff acc k0).mp hkc0
    have hp : pdict_probe hash acc k0 = none := pdict_probe_eq_none hash acc k0 habs
    have hroom : entryCount acc < acc.length := by omega
    obtain ⟨flen, fec, fkk, fkk2, fhe, fhf, fget, fgf, ffind, ftomb⟩ :=
      rawPut_insert_facts hash acc k0 v0 hp hroom h2
    have hstep : insertAll hash acc ((k0, v0) :: rest) =
        insertAll hash (rawPut hash acc k0 v0) rest := rfl
    rw [hstep]
    have h1x : ∀ k, rest.countP (fun kv => decide (kv.1 = k)) +
        keyCount (rawPut hash acc k0 v0) k ≤ 1 := by
      intro k
      by_cases hq : k = k0
      · subst hq
        rw [hcrest0, fkk, hkc0]
      · have hck := h1 k
        rw [List.countP_cons,
          if_neg (show ¬ (decide ((k0, v0).1 = k) = true) by
            simp only [decide_eq_true_eq]
            exact fun hq2 => hq hq2.symm)] at hck
        rw [fkk2 k hq]
        omega
    have h3x : entryCount (rawPut hash acc k0 v0) + rest.length <
        (rawPut hash acc k0 v0).length := by
      rw [flen, fec]
      omega
    obtain ⟨glen, gec, gkc, gfind, ghe, gtomb⟩ :=
      ih (rawPut hash acc k0 v0) h1x ffind h3x
    refine ⟨?_, ?_, ?_, gfind, ?_, ?_⟩
    · rw [glen, flen]
    · rw [gec, fec, List.length_cons]
      omega
    · intro k
      rw [gkc k, List.countP_cons]
      by_cases hq : k = k0
      · subst hq
        rw [fkk, hkc0, hcrest0,
          if_pos (show decide ((k, v0).1 = k) = true by simp)]
      · rw [fkk2 k hq,
          if_neg (show ¬ (decide ((k0, v0).1 = k) = true) by
            simp only [decide_eq_true_eq]
            exact fun hq2 => hq hq2.symm)]
        omega
    · intro k v
      rw [ghe k v, List.mem_cons]
      constructor
      · rintro (hv | hv)
        · by_cases hq : k = k0
          · subst hq
            have hnd1 : keyCount (rawPut hash acc k v0) k ≤ 1 := by
              rw [fkk, hkc0]
            obtain ⟨ja, hja, hea⟩ := hv
            obtain ⟨jb, hjb, heb⟩ := fhe
            obtain ⟨_, hveq⟩ :=
              hasEntry_unique (rawPut hash acc k v0) k hnd1 ja jb v v0 hja hea hjb heb
            exact Or.inr (Or.inl (by rw [hveq]))
          · exact Or.inl ((fhf k v hq).mp hv)
        · exact Or.inr (Or.inr hv)
      · rintro (hv | hv | hv)
        · by_cases hq : k = k0
          · subst hq
            exact absurd hv (habs v)
          · exact Or.inl ((fhf k v hq).mpr hv)
        · rw [Prod.ext_iff] at hv
          obtain ⟨hk1, hv1⟩ := hv
          subst hk1
          subst hv1
          exact Or.inl fhe
        · exact Or.inr hv
    · intro jx htx
      exact ftomb jx (gtomb jx htx)

/-- tableEntries membership is exactly HasEntry. -/
theorem tableEntries_mem {κ ν : Type} (t : List (Slot κ ν)) (k : κ) (v : ν) :
    (k, v) ∈ tableEntries t ↔ HasEntry t k v := by
  unfold tableEntries
  rw [List.mem_filterMap]
  constructor
  · rintro ⟨s, hs, hmatch⟩
    cases s with
    | empty => simp at hmatch
    | tomb => simp at hmatch
    | entry k1 v1 =>
      simp only [Option.some_inj] at hmatch
      rw [Prod.ext_iff] at hmatch
      obtain ⟨h1, h2⟩ := hmatch
      simp only [] at h1 h2
      subst h1
      subst h2
      obtain ⟨j, hj, he⟩ := (mem_iff_slotAt t _).mp hs
      exact ⟨j, hj, he⟩
  · rintro ⟨j, hj, he⟩
    exact ⟨Slot.entry k v, by rw [← he]; exact slotAt_mem t j hj, rfl⟩

/-- tableEntries length equals the entry count. -/
theorem tableEntries_length {κ ν : Type} :
    ∀ (t : List (Slot κ ν)), (tableEntries t).length = entryCount t := by
  intro t
  induction t with
  | nil => rfl
  | cons s t ih =>
    cases s with
    | empty =>
      simpa [tableEntries, entryCount, List.filterMap_cons, List.countP_cons,
        Slot.isEntry] using ih
    | tomb =>
      simpa [tableEntries, entryCount, List.filterMap_cons, List.countP_cons,
        Slot.isEntry] using ih
    | entry k1 v1 =>
      simpa [tableEntries, entryCount, List.filterMap_cons, List.countP_cons,
        Slot.isEntry] using ih

/-- tableEntries key counts equal the table's key counts. -/
theorem tableEntries_countP {κ ν : Type} [DecidableEq κ] :
    ∀ (t : List (Slot κ ν)) (k : κ),
      (tableEntries t).countP (fun kv => decide (kv.1 = k)) = keyCount t k := by
  intro t
  induction t with
  | nil => intro k; rfl
  | cons s t ih =>
    intro k
    cases s with
    | empty =>
      simpa [tableEntries, keyCount, List.filterMap_cons, List.countP_cons,
        Slot.hasKey] using ih k
    | tomb =>
      simpa [tableEntries, keyCount, List.filterMap_cons, List.countP_cons,
        Slot.hasKey] using ih k
    | entry k1 v1 =>
      have hh := ih k
      unfold tableEntries keyCount at hh ⊢
      simp only [List.filterMap_cons, List.countP_cons]
      by_cases hk : k1 = k
      · simp [Slot.hasKey, hk, hh]
      · simp [Slot.hasKey, hk, hh]

/-- Every slot of a fresh table reads empty. -/
theorem slotAt_replicate {κ ν : Type} (n j : Nat) :
    slotAt (List.replicate n (Slot.empty : Slot κ ν)) j = Slot.empty := by
  by_cases h : j < n
  · unfold slotAt
    rw [List.getD_eq_getElem?_getD, List.getElem?_replicate]
    simp [h]
  · exact slotAt_of_ge _ j (by
      rw [List.length_replicate]
      omega)

/-- A fresh table has no entries. -/
theorem entryCount_replicate {κ ν : Type} (n : Nat) :
    entryCount (List.replicate n (Slot.empty : Slot κ ν)) = 0 := by
  unfold entryCount
  rw [List.countP_eq_zero]
  intro s hs
  rw [List.eq_of_mem_replicate hs]
  simp [Slot.isEntry]

/-- A fresh table has no keys. -/
theorem keyCount_replicate {κ ν : Type} [DecidableEq κ] (n : Nat) (k : κ) :
    keyCount (List.replicate n (Slot.empty : Slot κ ν)) k = 0 := by
  unfold keyCount
  rw [List.countP_eq_zero]
  intro s hs
  rw [List.eq_of_mem_replicate hs]
  simp [Slot.hasKey]

/-- Claim C7 (resize part) and the put lemma's rehash step: rehashing into a
doubled table preserves every live key with its value, preserves the counts,
keeps the findability invariant, and drops all tombstones. -/
theorem rehash_spec {κ ν : Type} [DecidableEq κ] (hash : κ → Nat)
    (t : List (Slot κ ν)) (hwf : WF hash t) :
    (rehash hash t (2 * t.length)).length = 2 * t.length ∧
    entryCount (rehash hash t (2 * t.length)) = entryCount t ∧
    (∀ k, keyCount (rehash hash t (2 * t.length)) k = keyCount t k) ∧
    (∀ j k v, j < (rehash hash t (2 * t.length)).length →
      slotAt (rehash hash t (2 * t.length)) j = Slot.entry k v →
      pdict_get hash (rehash hash t (2 * t.length)) k = some v) ∧
    (∀ k v, HasEntry (rehash hash t (2 * t.length)) k v ↔ HasEntry t k v) ∧
    (∀ j, slotAt (rehash hash t (2 * t.length)) j ≠ Slot.tomb) := by
  have hlen2 := hwf.len2
  have hload := hwf.load
  have h1 : ∀ k, (tableEntries t).countP (fun kv => decide (kv.1 = k)) +
      keyCount (List.replicate (2 * t.length) (Slot.empty : Slot κ ν)) k ≤ 1 := by
    intro k
    rw [tableEntries_countP t k, keyCount_replicate]
    have := hwf.nodup k
    omega
  have h2 : ∀ j k v,
      j < (List.replicate (2 * t.length) (Slot.empty : Slot κ ν)).length →
      slotAt (List.replicate (2 * t.length) (Slot.empty : Slot κ ν)) j =
        Slot.entry k v →
      pdict_get hash (List.replicate (2 * t.length) Slot.empty) k = some v := by
    intro j k v _ he
    rw [slotAt_replicate] at he
    exact Slot.noConfusion he
  have h3 : entryCount (List.replicate (2 * t.length) (Slot.empty : Slot κ ν)) +
      (tableEntries t).length <
      (List.replicate (2 * t.length) (Slot.empty : Slot κ ν)).length := by
    rw [entryCount_replicate, tableEntries_length, List.length_replicate]
    have hcap : entryCount t ≤ t.length := List.countP_le_length _
    omega
  obtain ⟨glen, gec, gkc, gfind, ghe, gtomb⟩ :=
    insertAll_spec hash (tableEntries t)
      (List.replicate (2 * t.length) Slot.empty) h1 h2 h3
  have hre : rehash hash t (2 * t.length) =
      insertAll hash (List.replicate (2 * t.length) Slot.empty)
        (tableEntries t) := rfl
  rw [hre]
  refine ⟨?_, ?_, ?_, gfind, ?_, ?_⟩
  · rw [glen, List.length_replicate]
  · rw [gec, entryCount_replicate, tableEntries_length]
    omega
  · intro k
    rw [gkc k, keyCount_replicate, tableEntries_countP]
    omega
  · intro k v
    rw [ghe k v, tableEntries_mem]
    constructor
    · rintro (h | h)
      · obtain ⟨j, hj, he⟩ := h
        rw [slotAt_replicate] at he
        exact Slot.noConfusion he
      · exact h
    · exact Or.inr
  · intro j htomb
    have := gtomb j htomb
    rw [slotAt_replicate] at this
    exact Slot.noConfusion this

/-- Put semantics: invariant preserved (including the load bound), the key
now maps to the new value, every other key is untouched. -/
theorem pdict_put_spec {κ ν : Type} [DecidableEq κ] (hash : κ → Nat)
    (t : List (Slot κ ν)) (k : κ) (v : ν) (hwf : WF hash t) :
    WF hash (pdict_put hash t k v) ∧
    pdict_get hash (pdict_put hash t k v) k = some v ∧
    (∀ k2, k2 ≠ k →
      pdict_get hash (pdict_put hash t k v) k2 = pdict_get hash t k2) := by
  by_cases hcond : (pdict_probe hash t k).isNone = true ∧
      2 * t.length < 3 * (entryCount t + 1)
  · have hput : pdict_put hash t k v =
        rawPut hash (rehash hash t (2 * t.length)) k v := by
      simp only [pdict_put, if_pos hcond]
    rw [hput]
    obtain ⟨hpn0, hover⟩ := hcond
    have hpn : pdict_probe hash t k = none := by
      cases hh : pdict_probe hash t k with
      | none => rfl
      | some r => rw [hh] at hpn0; simp at hpn0
    obtain ⟨rlen, rec, rkc, rfind, rhe, rtomb⟩ := rehash_spec hash t hwf
    have habs : ∀ v2, ¬ HasEntry t k v2 := by
      intro v2 hv2
      obtain ⟨j, hj, he⟩ := hv2
      have hg := hwf.find j k v2 hj he
      unfold pdict_get at hg
      rw [hpn] at hg
      exact Option.noConfusion hg
    have habsR : ∀ v2, ¬ HasEntry (rehash hash t (2 * t.length)) k v2 :=
      fun v2 hv2 => habs v2 ((rhe k v2).mp hv2)
    have hpR : pdict_probe hash (rehash hash t (2 * t.length)) k = none :=
      pdict_probe_eq_none hash _ k habsR
    have hcap : entryCount t ≤ t.length := List.countP_le_length _
    have hlen2 := hwf.len2
    have hload := hwf.load
    have hroomR : entryCount (rehash hash t (2 * t.length)) <
        (rehash hash t (2 * t.length)).length := by
      rw [rec, rlen]
      omega
    obtain ⟨flen, fec, fkk, fkk2, fhe, fhf, fget, fgf, ffind, ftomb⟩ :=
      rawPut_insert_facts hash _ k v hpR hroomR rfind
    refine ⟨⟨?_, ?_, ?_, ffind⟩, fget, ?_⟩
    · rw [flen, rlen]
      omega
    · rw [flen, rlen, fec, rec]
      omega
    · intro k2
      by_cases hq : k2 = k
      · subst hq
        rw [fkk, rkc]
        have h0 : keyCount t k2 = 0 := (keyCount_eq_zero_iff t k2).mpr habs
        omega
      · rw [fkk2 k2 hq, rkc]
        exact hwf.nodup k2
    · intro k2 hk2
      rw [fgf k2 hk2]
      exact pdict_get_congr hash _ t k2
        (fun j v2 hj he => rfind j k2 v2 hj he)
        (fun j v2 hj he => hwf.find j k2 v2 hj he)
        (fun v2 => rhe k2 v2)
  · have hput : pdict_put hash t k v = rawPut hash t k v := by
      simp only [pdict_put, if_neg hcond]
    rw [hput]
    match hp : pdict_probe hash t k with
    | some (j, w) =>
      obtain ⟨flen, fec, fkk, fhe, fhf, fget, fgf, ftomb⟩ :=
        rawPut_replace_facts hash t k v j w hp
      refine ⟨⟨?_, ?_, ?_, ?_⟩, fget, fgf⟩
      · rw [flen]
        exact hwf.len2
      · rw [flen, fec]
        exact hwf.load
      · intro k2
        rw [fkk k2]
        exact hwf.nodup k2
      · intro j1 k1 v1 hj1 he1
        by_cases hk1 : k1 = k
        · subst hk1
          have hval : v1 = v := by
            obtain ⟨jb, hjb, heb⟩ := fhe
            have hnd : keyCount (rawPut hash t k1 v) k1 ≤ 1 := by
              rw [fkk k1]
              exact hwf.nodup k1
            obtain ⟨_, hveq⟩ := hasEntry_unique (rawPut hash t k1 v) k1 hnd
              j1 jb v1 v hj1 he1 hjb heb
            exact hveq
          rw [hval]
          exact fget
        · rw [fgf k1 hk1]
          obtain ⟨j2, hj2, he2⟩ := (fhf k1 v1 hk1).mp ⟨j1, hj1, he1⟩
          exact hwf.find j2 k1 v1 hj2 he2
    | none =>
      have hno : ¬ (2 * t.length < 3 * (entryCount t + 1)) := by
        intro hlt
        exact hcond ⟨by rw [hp]; rfl, hlt⟩
      have hlen2 := hwf.len2
      have hroom : entryCount t < t.length := by omega
      obtain ⟨flen, fec, fkk, fkk2, fhe, fhf, fget, fgf, ffind, ftomb⟩ :=
        rawPut_insert_facts hash t k v hp hroom hwf.find
      refine ⟨⟨?_, ?_, ?_, ffind⟩, fget, fgf⟩
      · rw [flen]
        omega
      · rw [flen, fec]
        omega
      · intro k2
        by_cases hq : k2 = k
        · subst hq
          rw [fkk]
          have habs : ∀ v2, ¬ HasEntry t k2 v2 := by
            intro v2 hv2
            obtain ⟨j, hj, he⟩ := hv2
            have hg := hwf.find j k2 v2 hj he
            unfold pdict_get at hg
            rw [hp] at hg
            exact Option.noConfusion hg
          have h0 : keyCount t k2 = 0 := (keyCount_eq_zero_iff t k2).mpr habs
          omega
        · rw [fkk2 k2 hq]
          exact hwf.nodup k2

/-- A fresh dictionary satisfies the invariant. -/
theorem pdict_new_WF {κ ν : Type} [DecidableEq κ] (hash : κ → Nat) (size : Nat) :
    WF hash (pdict_new (κ := κ) (ν := ν) size) := by
  unfold pdict_new
  refine ⟨?_, ?_, ?_, ?_⟩
  · rw [List.length_replicate]
    omega
  · rw [entryCount_replicate, List.length_replicate]
    omega
  · intro k
    rw [keyCount_replicate]
    omega
  · intro j k v _ he
    rw [slotAt_replicate] at he
    exact Slot.noConfusion he

/-- A dictionary operation: put a key/value pair or delete a key. -/
inductive DOp (κ ν : Type) where
  | put (k : κ) (v : ν)
  | del (k : κ)

/-- The key an operation touches. -/
def DOp.key {κ ν : Type} : DOp κ ν → κ
  | .put k _ => k
  | .del k => k

/-- Apply one operation to a table. -/
def applyOp {κ ν : Type} [DecidableEq κ] (hash : κ → Nat)
    (t : List (Slot κ ν)) : DOp κ ν → List (Slot κ ν)
  | .put k v => pdict_put hash t k v
  | .del k => pdict_del hash t k

/-- Apply a sequence of operations, left to right. -/
def applyOps {κ ν : Type} [DecidableEq κ] (hash : κ → Nat)
    (t : List (Slot κ ν)) (ops : List (DOp κ ν)) : List (Slot κ ν) :=
  ops.foldl (applyOp hash) t

/-- Operations on other keys preserve the invariant and the value read for
k, no matter how many rehash events they trigger. -/
theorem applyOps_preserves {κ ν : Type} [DecidableEq κ] (hash : κ → Nat)
    (k : κ) : ∀ (ops : List (DOp κ ν)) (t : List (Slot κ ν)), WF hash t →
      (∀ op ∈ ops, op.key ≠ k) →
      WF hash (applyOps hash t ops) ∧
      pdict_get hash (applyOps hash t ops) k = pdict_get hash t k := by
  intro ops
  induction ops with
  | nil => intro t hwf _; exact ⟨hwf, rfl⟩
  | cons op rest ih =>
    intro t hwf hav
    have hkey : op.key ≠ k := hav op (List.mem_cons_self _ _)
    have hrest : ∀ op2 ∈ rest, DOp.key op2 ≠ k :=
      fun op2 h2 => hav op2 (List.mem_cons_of_mem _ h2)
    have hstep : applyOps hash t (op :: rest) =
        applyOps hash (applyOp hash t op) rest := rfl
    rw [hstep]
    cases op with
    | put k1 v1 =>
      simp only [applyOp]
      have hk1 : k1 ≠ k := hkey
      obtain ⟨hwf1, _, hframe⟩ := pdict_put_spec hash t k1 v1 hwf
      obtain ⟨hwfr, hgr⟩ := ih (pdict_put hash t k1 v1) hwf1 hrest
      refine ⟨hwfr, ?_⟩
      rw [hgr]
      exact hframe k (fun hq => hk1 hq.symm)
    | del k1 =>
      simp only [applyOp]
      have hk1 : k1 ≠ k := hkey
      obtain ⟨hwf1, _, hframe, _⟩ := pdict_del_spec hash t k1 hwf
      obtain ⟨hwfr, hgr⟩ := ih (pdict_del hash t k1) hwf1 hrest
      refine ⟨hwfr, ?_⟩
      rw [hgr]
      exact hframe k (fun hq => hk1 hq.symm)

/-- Claim C2: after pdict_put(f,k,v), pdict_get(f,k) returns v across any
number of operations on other keys (including ones that trigger rehashes),
until pdict_del(f,k); after the delete, pdict_get(f,k) returns the
not-found sentinel across further operations on other keys. -/
theorem pdict_put_get_del {κ ν : Type} [DecidableEq κ] (hash : κ → Nat)
    (t : List (Slot κ ν)) (k : κ) (v : ν) (ops1 ops2 : List (DOp κ ν))
    (hwf : WF hash t)
    (h1 : ∀ op ∈ ops1, op.key ≠ k) (h2 : ∀ op ∈ ops2, op.key ≠ k) :
    pdict_get hash (applyOps hash (pdict_put hash t k v) ops1) k = some v ∧
    pdict_get hash
      (applyOps hash
        (pdict_del hash (applyOps hash (pdict_put hash t k v) ops1) k) ops2)
      k = none := by
  obtain ⟨hwf1, hget1, _⟩ := pdict_put_spec hash t k v hwf
  obtain ⟨hwf2, hget2⟩ :=
    applyOps_preserves hash k ops1 (pdict_put hash t k v) hwf1 h1
  obtain ⟨hwf3, hget3, _, _⟩ := pdict_del_spec hash _ k hwf2
  obtain ⟨hwf4, hget4⟩ := applyOps_preserves hash k ops2 _ hwf3 h2
  exact ⟨by rw [hget2, hget1], by rw [hget4, hget3]⟩

/-- Witness for C2: a fresh table, put of key 1, five puts of other keys
(enough to trigger a rehash of the capacity-8 table), then delete of key 1
and one more unrelated put. -/
theorem pdict_put_get_del_witness :
    pdict_get (fun n => n) (applyOps (fun n => n)
      (pdict_put (fun n => n) (pdict_new (κ := Nat) (ν := Nat) 2) 1 10)
      [DOp.put 2 20, DOp.put 3 30, DOp.put 4 40, DOp.put 5 50, DOp.put 6 60])
      1 = some 10 ∧
    pdict_get (fun n => n) (applyOps (fun n => n)
      (pdict_del (fun n => n) (applyOps (fun n => n)
        (pdict_put (fun n => n) (pdict_new (κ := Nat) (ν := Nat) 2) 1 10)
        [DOp.put 2 20, DOp.put 3 30, DOp.put 4 40, DOp.put 5 50, DOp.put 6 60])
        1) [DOp.put 7 70]) 1 = none :=
  pdict_put_get_del (fun n => n) (pdict_new 2) 1 10
    [DOp.put 2 20, DOp.put 3 30, DOp.put 4 40, DOp.put 5 50, DOp.put 6 60]
    [DOp.put 7 70] (pdict_new_WF _ 2) (by decide) (by decide)

/-- Claim C6: put(k,v); del(k); put(k2,v2) with k2 a distinct key hashing
to the same slot as k never resurrects k: a later get(k) still returns the
not-found sentinel, and the delete left a tombstone (not an empty slot). -/
theorem pdict_no_resurrection {κ ν : Type} [DecidableEq κ] (hash : κ → Nat)
    (t : List (Slot κ ν)) (k k2 : κ) (v v2 : ν) (hwf : WF hash t)
    (hne : k2 ≠ k)
    (_hcol : hash k2 % (pdict_del hash (pdict_put hash t k v) k).length =
      hash k % (pdict_del hash (pdict_put hash t k v) k).length) :
    pdict_get hash
      (pdict_put hash (pdict_del hash (pdict_put hash t k v) k) k2 v2)
      k = none ∧
    ∃ j, j < (pdict_del hash (pdict_put hash t k v) k).length ∧
      slotAt (pdict_del hash (pdict_put hash t k v) k) j = Slot.tomb := by
  obtain ⟨hwf1, hget1, _⟩ := pdict_put_spec hash t k v hwf
  obtain ⟨hwf2, hget2, _, htomb2⟩ := pdict_del_spec hash _ k hwf1
  obtain ⟨hwf3, _, hframe3⟩ := pdict_put_spec hash _ k2 v2 hwf2
  refine ⟨?_, ?_⟩
  · rw [hframe3 k (fun hq => hne hq.symm), hget2]
  · exact htomb2 (by rw [hget1]; exact fun hq => Option.noConfusion hq)

/-- Witness for C6: keys 1 and 9 collide modulo the capacity-8 table. -/
theorem pdict_no_resurrection_witness :
    pdict_get (fun n => n)
      (pdict_put (fun n => n)
        (pdict_del (fun n => n)
          (pdict_put (fun n => n) (pdict_new (κ := Nat) (ν := Nat) 2) 1 10)
          1) 9 90) 1 = none :=
  (pdict_no_resurrection (fun n => n) (pdict_new 2) 1 9 10 90
    (pdict_new_WF _ 2) (by decide) (by decide)).1

/-- Claim C7: immediately after any put returns, the number of live entries
over the table capacity does not exceed the 2/3 load threshold; the rehash
step at least doubles the capacity, preserves every live key with its
value, and drops all tombstones. -/
theorem pdict_put_load_bound {κ ν : Type} [DecidableEq κ] (hash : κ → Nat)
    (t : List (Slot κ ν)) (k : κ) (v : ν) (hwf : WF hash t) :
    3 * entryCount (pdict_put hash t k v) ≤
      2 * (pdict_put hash t k v).length ∧
    (rehash hash t (2 * t.length)).length = 2 * t.length ∧
    (∀ k2 v2, HasEntry (rehash hash t (2 * t.length)) k2 v2 ↔
      HasEntry t k2 v2) ∧
    (∀ j, slotAt (rehash hash t (2 * t.length)) j ≠ Slot.tomb) := by
  obtain ⟨hwf1, _, _⟩ := pdict_put_spec hash t k v hwf
  obtain ⟨rlen, _, _, _, rhe, rtomb⟩ := rehash_spec hash t hwf
  exact ⟨hwf1.load, rlen, fun k2 v2 => rhe k2 v2, rtomb⟩

/-- Witness for C7: the load bound at a concrete put into a fresh table. -/
theorem pdict_put_load_bound_witness :
    3 * entryCount (pdict_put (fun n => n)
        (pdict_new (κ := Nat) (ν := Nat) 2) 1 10) ≤
      2 * (pdict_put (fun n => n) (pdict_new (κ := Nat) (ν := Nat) 2) 1 10).length :=
  (pdict_put_load_bound (fun n => n) (pdict_new 2) 1 10 (pdict_new_WF _ 2)).1

/- ===================================================================
   Sets and frozensets.
   =================================================================== -/

/-- Modelled from the spec: a set object wraps the hash table (items as keys
with unit values) plus the frozen flag distinguishing PSET from PFSET
(phash.h is not in src/). -/
structure PSet (κ : Type) where
  frozen : Bool
  table : List (Slot κ Unit)

/-- The element count of a hash collection (macro PHASH_ELEMENTS). -/
def PHASH_ELEMENTS {κ : Type} (s : PSet κ) : Nat := entryCount s.table

/-- Modelled from the spec: pset_new creates an empty set or frozenset,
with enough space for the requested number of items. -/
def pset_new {κ : Type} (frozen : Bool) (size : Nat) : PSet κ :=
  ⟨frozen, pdict_new size⟩

/-- Modelled from the spec: the frozen-violation result code; mutating a
frozen collection is rejected with an error result (a type error at the
interpreter boundary), never silently ignored. -/
def ERR_FROZEN_VIOLATION : Int := ERR_TYPE_EXC

/-- Modelled from the spec: pset_put adds an item to a mutable set and
rejects frozen collections with the frozen-violation result code. -/
def pset_put {κ : Type} [DecidableEq κ] (hash : κ → Nat) (s : PSet κ)
    (k : κ) : Except Int (PSet κ) :=
  if s.frozen then Except.error ERR_FROZEN_VIOLATION
  else Except.ok ⟨false, pdict_put hash s.table k ()⟩

/-- Modelled from the spec: pset_del removes an item from a mutable set and
rejects frozen collections with the frozen-violation result code. -/
def pset_del {κ : Type} [DecidableEq κ] (hash : κ → Nat) (s : PSet κ)
    (k : κ) : Except Int (PSet κ) :=
  if s.frozen then Except.error ERR_FROZEN_VIOLATION
  else Except.ok ⟨false, pdict_del hash s.table k⟩

/-- Modelled from the spec: frozenset construction inserts the items into a
fresh table (collapsing duplicates) and then freezes the collection. -/
def pfrozenset_new {κ : Type} [DecidableEq κ] (hash : κ → Nat)
    (items : List κ) : PSet κ :=
  ⟨true, items.foldl (fun t k => pdict_put hash t k ()) (pdict_new items.length)⟩

/-- Claim C9: the frozenset built from items {1,2,2,3} holds exactly 3
distinct items (duplicates collapsed at construction), and any put or
delete on a frozen collection is rejected with the frozen-violation error
result code — never applied and never silently ignored. -/
theorem pfrozenset_spec (κ : Type) [DecidableEq κ] (hash : κ → Nat)
    (s : PSet κ) (k : κ) (hf : s.frozen = true) :
    PHASH_ELEMENTS (pfrozenset_new (fun n => n) [1, 2, 2, 3] : PSet Nat) = 3 ∧
    pset_put hash s k = Except.error ERR_FROZEN_VIOLATION ∧
    pset_del hash s k = Except.error ERR_FROZEN_VIOLATION := by
  refine ⟨by decide, ?_, ?_⟩
  · unfold pset_put
    rw [if_pos hf]
  · unfold pset_del
    rw [if_pos hf]

/-- Witness for C9 at the concrete frozenset of {1,2,2,3} and item 5. -/
theorem pfrozenset_spec_witness :
    PHASH_ELEMENTS (pfrozenset_new (fun n => n) [1, 2, 2, 3] : PSet Nat) = 3 ∧
    pset_put (fun n => n)
      (pfrozenset_new (fun n => n) [1, 2, 2, 3] : PSet Nat) 5 =
      Except.error ERR_FROZEN_VIOLATION :=
  ⟨(pfrozenset_spec Nat (fun n => n)
      (pfrozenset_new (fun n => n) [1, 2, 2, 3]) 5 rfl).1,
   (pfrozenset_spec Nat (fun n => n)
      (pfrozenset_new (fun n => n) [1, 2, 2, 3]) 5 rfl).2.1⟩

end Zerynth
